import Mathlib

/-!
# PiecewiseIntegral

A shallow embedding of `ql/experimental/math/piecewiseintegral.hpp`
(class `PiecewiseIntegral`: constructor, `integrate_h`, `integrate`).

Conventions of the embedding.

* The C++ type `Real` is taken as the rationals `ℚ`. The class is embedded twice:
  with exact multiplication, division and addition (`integrate`), and with every
  product, quotient and sum rounded to `double` (`integrateRounded` with
  `roundToDouble`). Statements about strict inequalities between nudged values, or
  about exact results, are made over the rounded embedding.
* `std::vector<Real>` is a `List ℚ`; an iterator is an index (`ℕ`), the
  end iterator is the length of the list.
* A call of the delegate `integrator_->operator()(f, a, b)` is observable: every
  function that may reach the delegate returns the value it computes together
  with the list of delegate calls it issued, in the order they were issued.
* `close_enough` (ql/math/comparison.hpp) and `QL_EPSILON` (ql/qldefines.hpp)
  are used by the class but defined elsewhere; the class is embedded with both
  as parameters, and a model of each is given for concrete evaluation.
-/

namespace QuantLib

/-! ## Data model -/

/-- The delegate: `Integrator::operator()(f, a, b)`. -/
abbrev Integrator := (ℚ → ℚ) → ℚ → ℚ → ℚ

/-- One delegate call, recorded as its bounds `(lower, upper)`. -/
abbrev Call := ℚ × ℚ

/-- A value together with the delegate calls issued while computing it. -/
abbrev Traced := ℚ × List Call

/-- The statement `res += r`, with the calls of `r` appended to the log. -/
def Traced.add (res r : Traced) : Traced := (res.1 + r.1, res.2 ++ r.2)

/-- The data members of `class PiecewiseIntegral`. -/
structure PiecewiseIntegral where
  /-- The member `integrator_`. -/
  integrator_ : Integrator
  /-- The member `criticalPoints_`. -/
  criticalPoints_ : List ℚ
  /-- The member `eps_`. -/
  eps_ : ℚ

/-! ## Library routines used by the class -/

/-- `std::sort(first, last)`: the ascending rearrangement of the sequence. -/
def sort (v : List ℚ) : List ℚ := v.insertionSort (fun x y => x ≤ y)

/-- The scan of `std::unique(first, last, pred)` after its first element:
`kept` is the element written last, and the next element is dropped when
`pred kept x` holds, written (and made the new `kept`) otherwise. -/
def uniqueFrom (pred : ℚ → ℚ → Bool) (kept : ℚ) : List ℚ → List ℚ
  | [] => []
  | x :: xs => if pred kept x then uniqueFrom pred kept xs else x :: uniqueFrom pred x xs

/-- `std::unique(first, last, pred)` followed by the `resize` to the returned end. -/
def unique (pred : ℚ → ℚ → Bool) : List ℚ → List ℚ
  | [] => []
  | x :: xs => x :: uniqueFrom pred x xs

/-- `std::lower_bound(first, last, a)` on an ascending sequence: the position of
the first element that is not less than `a` (the length when there is none). -/
def lower_bound (v : List ℚ) (a : ℚ) : ℕ := (v.takeWhile (fun c => decide (c < a))).length

/-- Dereferencing the iterator at position `i`. -/
def deref (v : List ℚ) (i : ℕ) : ℚ := v.getD i 0

/-! ## The class -/

/-- The constructor `PiecewiseIntegral::PiecewiseIntegral`. -/
def PiecewiseIntegral.create (close_enough : ℚ → ℚ → Bool) (QL_EPSILON : ℚ)
    (integrator : Integrator) (criticalPoints : List ℚ) (avoidCriticalPoints : Bool) :
    PiecewiseIntegral :=
  PiecewiseIntegral.mk integrator (unique close_enough (sort criticalPoints))
    (if avoidCriticalPoints then 1 + QL_EPSILON else 1)

/-- The member function `PiecewiseIntegral::integrate_h`. -/
def PiecewiseIntegral.integrate_h (close_enough : ℚ → ℚ → Bool) (P : PiecewiseIntegral)
    (f : ℚ → ℚ) (a b : ℚ) : Traced :=
  if !close_enough a b then (P.integrator_ f a b, [(a, b)]) else (0, [])

/-- The branch `a0 == criticalPoints_.end()` of `integrate`. -/
def PiecewiseIntegral.wholeSegment (close_enough : ℚ → ℚ → Bool) (P : PiecewiseIntegral)
    (f : ℚ → ℚ) (a b : ℚ) : Traced :=
  let tmp : ℚ :=
    if !P.criticalPoints_.isEmpty then
      if close_enough a (P.criticalPoints_.getLastD 0) then P.eps_ else 1
    else 1
  P.integrate_h close_enough f (a * tmp) b

/-- The statement `if (!close_enough(a, *a0)) res += integrate_h(...)` of `integrate`. -/
def PiecewiseIntegral.leadingSegment (close_enough : ℚ → ℚ → Bool) (P : PiecewiseIntegral)
    (f : ℚ → ℚ) (a b : ℚ) (a0 : ℕ) : Traced :=
  if !close_enough a (deref P.criticalPoints_ a0) then
    P.integrate_h close_enough f a (min (deref P.criticalPoints_ a0 / P.eps_) b)
  else (0, [])

/-- The value of the iterator `b0` after the block `if (b0 == criticalPoints_.end())`. -/
def PiecewiseIntegral.lastIter (P : PiecewiseIntegral) (b0 : ℕ) : ℕ :=
  if b0 = P.criticalPoints_.length then b0 - 1 else b0

/-- The block `if (b0 == criticalPoints_.end()) ...` of `integrate`; `b0` is the
iterator before the block. -/
def PiecewiseIntegral.trailingSegment (close_enough : ℚ → ℚ → Bool) (P : PiecewiseIntegral)
    (f : ℚ → ℚ) (b : ℚ) (b0 : ℕ) : Traced :=
  if b0 = P.criticalPoints_.length then
    if !close_enough (deref P.criticalPoints_ (b0 - 1)) b then
      P.integrate_h close_enough f (deref P.criticalPoints_ (b0 - 1) * P.eps_) b
    else (0, [])
  else (0, [])

/-- The body of the loop of `integrate` at iterator `x`. -/
def PiecewiseIntegral.interiorSegment (close_enough : ℚ → ℚ → Bool) (P : PiecewiseIntegral)
    (f : ℚ → ℚ) (b : ℚ) (x : ℕ) : Traced :=
  P.integrate_h close_enough f (deref P.criticalPoints_ x * P.eps_)
    (min (deref P.criticalPoints_ (x + 1) / P.eps_) b)

/-- The loop `for (x = a0; x < b0; ++x) res += integrate_h(...)` of `integrate`,
started with the accumulator `res`. -/
def PiecewiseIntegral.interiorLoop (close_enough : ℚ → ℚ → Bool) (P : PiecewiseIntegral)
    (f : ℚ → ℚ) (b : ℚ) (a0 b0 : ℕ) (res : Traced) : Traced :=
  (List.range' a0 (b0 - a0)).foldl
    (fun r x => r.add (P.interiorSegment close_enough f b x)) res

/-- The member function `PiecewiseIntegral::integrate`. -/
def PiecewiseIntegral.integrate (close_enough : ℚ → ℚ → Bool) (P : PiecewiseIntegral)
    (f : ℚ → ℚ) (a b : ℚ) : Traced :=
  let a0 := lower_bound P.criticalPoints_ a
  let b0 := lower_bound P.criticalPoints_ b
  if a0 = P.criticalPoints_.length then
    P.wholeSegment close_enough f a b
  else
    let res : Traced := (0, [])
    let res := res.add (P.leadingSegment close_enough f a b a0)
    let res := res.add (P.trailingSegment close_enough f b b0)
    P.interiorLoop close_enough f b a0 (P.lastIter b0) res

/-! ## Models of the parts defined outside the class -/

/-- Modelled from the spec: `QL_EPSILON` (ql/qldefines.hpp) is not part of the
sources at hand; the spec calls it the machine epsilon, which for the C++
`double` is `2^-52`. -/
def QL_EPSILON : ℚ := 1 / 2 ^ 52

/-- Modelled from the spec: `close_enough` (ql/math/comparison.hpp) is not part
of the sources at hand. The spec describes a symmetric relative closeness test:
two values are equal up to tolerance when their difference is within a small
multiple `n` of the machine epsilon relative to their magnitude. -/
def closeEnoughWithin (n : ℕ) (x y : ℚ) : Bool :=
  decide (|x - y| ≤ (n : ℚ) * QL_EPSILON * max |x| |y|)

/-- Modelled from the spec: the two-argument `close_enough`, with the multiple of
the machine epsilon fixed to 42. -/
def closeEnough (x y : ℚ) : Bool := closeEnoughWithin 42 x y

/-- A delegate that returns the width `upper - lower` of the interval it is given. -/
def widthIntegrator : Integrator := fun _ lower upper => upper - lower

/-! ## The arithmetic of `double`

The definitions above take the arithmetic of `Real` as exact. The source computes in
`double`, where each product, quotient and sum is rounded. The definitions below repeat
the arithmetic steps of `integrate` with the rounding `fl` applied to every result; with
`fl = id` they are the definitions above. Comparisons and `std::min` do not round. -/

/-- The integer nearest to `x`, the even one of the two when `x` lies halfway. -/
def roundHalfEven (x : ℚ) : ℤ :=
  if x - (Rat.floor x : ℚ) < 1 / 2 then Rat.floor x
  else if 1 / 2 < x - (Rat.floor x : ℚ) then Rat.floor x + 1
  else if Rat.floor x % 2 = 0 then Rat.floor x else Rat.floor x + 1

/-- The exponent `q` of the spacing `2^q` of the `double` values around `x`: the least
`q >= -1074` with `|x| < 2^(q + 53)`, searched through the 2046 exponents of the format;
`none` when `|x| >= 2^1024`. -/
def quantumExponent (x : ℚ) : Option ℤ :=
  ((List.range 2046).find?
    (fun k => decide (x.num.natAbs * 2 ^ (1021 - k) < 2 ^ (k - 1021) * x.den))).map
    (fun k : ℕ => (k : ℤ) - 1074)

/-- The `double` nearest to `x` (IEEE 754 binary64, round to nearest, ties to even,
subnormal values included). Overflow is not modelled: where IEEE 754 gives an infinity
(`|x| >= 2^1024 - 2^970`) the result is `2^1024` in magnitude, or `x` itself when
`|x| >= 2^1024`, which keeps the order of the values. -/
def roundToDouble (x : ℚ) : ℚ :=
  match quantumExponent x with
  | some q => (roundHalfEven (x / (2 : ℚ) ^ q) : ℚ) * (2 : ℚ) ^ q
  | none => x

/-- The statement `res += r` with the sum rounded by `fl`. -/
def Traced.addRounded (fl : ℚ → ℚ) (res r : Traced) : Traced :=
  (fl (res.1 + r.1), res.2 ++ r.2)

/-- The branch `a0 == criticalPoints_.end()` of `integrate`, the product `a * tmp`
rounded by `fl`. -/
def PiecewiseIntegral.wholeSegmentRounded (fl : ℚ → ℚ) (close_enough : ℚ → ℚ → Bool)
    (P : PiecewiseIntegral) (f : ℚ → ℚ) (a b : ℚ) : Traced :=
  let tmp : ℚ :=
    if !P.criticalPoints_.isEmpty then
      if close_enough a (P.criticalPoints_.getLastD 0) then P.eps_ else 1
    else 1
  P.integrate_h close_enough f (fl (a * tmp)) b

/-- The call `integrate_h(f, a, std::min(*a0 / eps_, b))` of the leading segment, the
quotient rounded by `fl`. -/
def PiecewiseIntegral.leadingSegmentRounded (fl : ℚ → ℚ) (close_enough : ℚ → ℚ → Bool)
    (P : PiecewiseIntegral) (f : ℚ → ℚ) (a b : ℚ) (a0 : ℕ) : Traced :=
  P.integrate_h close_enough f a (min (fl (deref P.criticalPoints_ a0 / P.eps_)) b)

/-- The call `integrate_h(f, (*b0) * eps_, b)` of the trailing segment, the product
rounded by `fl`; `b0` is the iterator before the decrement. -/
def PiecewiseIntegral.trailingSegmentRounded (fl : ℚ → ℚ) (close_enough : ℚ → ℚ → Bool)
    (P : PiecewiseIntegral) (f : ℚ → ℚ) (b : ℚ) (b0 : ℕ) : Traced :=
  P.integrate_h close_enough f (fl (deref P.criticalPoints_ (b0 - 1) * P.eps_)) b

/-- The call of the loop body of `integrate` at iterator `x`, product and quotient
rounded by `fl`. -/
def PiecewiseIntegral.interiorSegmentRounded (fl : ℚ → ℚ) (close_enough : ℚ → ℚ → Bool)
    (P : PiecewiseIntegral) (f : ℚ → ℚ) (b : ℚ) (x : ℕ) : Traced :=
  P.integrate_h close_enough f (fl (deref P.criticalPoints_ x * P.eps_))
    (min (fl (deref P.criticalPoints_ (x + 1) / P.eps_)) b)

/-- The loop `for (x = a0; x < b0; ++x) res += integrate_h(...)` of `integrate` in the
arithmetic rounded by `fl`, started with the accumulator `res`. -/
def PiecewiseIntegral.interiorLoopRounded (fl : ℚ → ℚ) (close_enough : ℚ → ℚ → Bool)
    (P : PiecewiseIntegral) (f : ℚ → ℚ) (b : ℚ) (a0 b0 : ℕ) (res : Traced) : Traced :=
  (List.range' a0 (b0 - a0)).foldl
    (fun r x => r.addRounded fl (P.interiorSegmentRounded fl close_enough f b x)) res

/-- The member function `PiecewiseIntegral::integrate` in the arithmetic rounded by
`fl`. -/
def PiecewiseIntegral.integrateRounded (fl : ℚ → ℚ) (close_enough : ℚ → ℚ → Bool)
    (P : PiecewiseIntegral) (f : ℚ → ℚ) (a b : ℚ) : Traced :=
  let a0 := lower_bound P.criticalPoints_ a
  let b0 := lower_bound P.criticalPoints_ b
  if a0 = P.criticalPoints_.length then
    P.wholeSegmentRounded fl close_enough f a b
  else
    let res : Traced := (0, [])
    let res :=
      if !close_enough a (deref P.criticalPoints_ a0) then
        res.addRounded fl (P.leadingSegmentRounded fl close_enough f a b a0)
      else res
    let res :=
      if b0 = P.criticalPoints_.length then
        if !close_enough (deref P.criticalPoints_ (b0 - 1)) b then
          res.addRounded fl (P.trailingSegmentRounded fl close_enough f b b0)
        else res
      else res
    P.interiorLoopRounded fl close_enough f b a0 (P.lastIter b0) res

/-- A delegate that returns the width `upper - lower` of the interval it is given,
the difference rounded by `fl`. -/
def widthIntegratorRounded (fl : ℚ → ℚ) : Integrator := fun _ lower upper => fl (upper - lower)

/-! ## The normalisation in the words of the specification -/

/-- The scan of the specification's normalisation after its first element: `prev` is
the immediate predecessor in the ascending sequence, and the next element is removed
when `pred prev x` holds and kept otherwise; in both cases it is the next predecessor. -/
def dropCloseToPredecessorFrom (pred : ℚ → ℚ → Bool) (prev : ℚ) : List ℚ → List ℚ
  | [] => []
  | x :: xs =>
    if pred prev x then dropCloseToPredecessorFrom pred x xs
    else x :: dropCloseToPredecessorFrom pred x xs

/-- The normalisation as the specification words it: from the ascending sequence remove
every element that is close enough to its immediate predecessor, keep the others. -/
def dropCloseToPredecessor (pred : ℚ → ℚ → Bool) : List ℚ → List ℚ
  | [] => []
  | x :: xs => x :: dropCloseToPredecessorFrom pred x xs

/-! ## Normalisation of the critical points -/

theorem uniqueFrom_sublist (pred : ℚ → ℚ → Bool) (kept : ℚ) (v : List ℚ) :
    (uniqueFrom pred kept v).Sublist v := by
  induction v generalizing kept with
  | nil => exact List.Sublist.refl _
  | cons x xs ih =>
    unfold uniqueFrom
    split
    · exact (ih kept).cons x
    · exact (ih x).cons₂ x

theorem unique_sublist (pred : ℚ → ℚ → Bool) (v : List ℚ) : (unique pred v).Sublist v := by
  cases v with
  | nil => exact List.Sublist.refl _
  | cons x xs => exact (uniqueFrom_sublist pred x xs).cons₂ x

theorem uniqueFrom_chain (pred : ℚ → ℚ → Bool) (kept : ℚ) (v : List ℚ) :
    List.Chain (fun x y => pred x y = false) kept (uniqueFrom pred kept v) := by
  induction v generalizing kept with
  | nil => exact List.Chain.nil
  | cons x xs ih =>
    unfold uniqueFrom
    split
    · exact ih kept
    · next h => exact List.Chain.cons (by simpa using h) (ih x)

theorem unique_chain' (pred : ℚ → ℚ → Bool) (v : List ℚ) :
    List.Chain' (fun x y => pred x y = false) (unique pred v) := by
  cases v with
  | nil => exact List.chain'_nil
  | cons x xs => exact uniqueFrom_chain pred x xs

theorem uniqueFrom_of_chain (pred : ℚ → ℚ → Bool) (kept : ℚ) (v : List ℚ)
    (h : List.Chain (fun x y => pred x y = false) kept v) : uniqueFrom pred kept v = v := by
  induction v generalizing kept with
  | nil => rfl
  | cons x xs ih =>
    rw [List.chain_cons] at h
    unfold uniqueFrom
    rw [h.1, ih x h.2]
    rfl

theorem unique_of_chain' (pred : ℚ → ℚ → Bool) (v : List ℚ)
    (h : List.Chain' (fun x y => pred x y = false) v) : unique pred v = v := by
  cases v with
  | nil => rfl
  | cons x xs =>
    show x :: uniqueFrom pred x xs = x :: xs
    rw [uniqueFrom_of_chain pred x xs h]

theorem chain'_and {R S : ℚ → ℚ → Prop} :
    ∀ (l : List ℚ), List.Chain' R l → List.Chain' S l → List.Chain' (fun x y => R x y ∧ S x y) l
  | [], _, _ => List.chain'_nil
  | [x], _, _ => List.chain'_singleton x
  | x :: y :: l, h1, h2 => by
    rw [List.chain'_cons] at h1 h2 ⊢
    exact ⟨⟨h1.1, h2.1⟩, chain'_and (y :: l) h1.2 h2.2⟩

theorem sort_sorted (v : List ℚ) : (sort v).Sorted (fun x y => x ≤ y) :=
  List.sorted_insertionSort (fun x y : ℚ => x ≤ y) v

theorem sort_of_sorted (v : List ℚ) (h : v.Sorted (fun x y => x ≤ y)) : sort v = v :=
  List.Sorted.insertionSort_eq h

theorem unique_sort_sorted (pred : ℚ → ℚ → Bool) (v : List ℚ) :
    (unique pred (sort v)).Sorted (fun x y => x ≤ y) :=
  (sort_sorted v).sublist (unique_sublist pred (sort v))

/-- With a reflexive predicate the normalised sequence is strictly ascending. -/
theorem unique_sort_strict (pred : ℚ → ℚ → Bool) (hrefl : ∀ x, pred x x = true) (v : List ℚ) :
    (unique pred (sort v)).Sorted (fun x y => x < y) := by
  have h1 : List.Chain' (fun x y : ℚ => x ≤ y) (unique pred (sort v)) :=
    List.Pairwise.chain' (unique_sort_sorted pred v)
  have h2 := unique_chain' pred (sort v)
  have h3 : List.Chain' (fun x y : ℚ => x < y) (unique pred (sort v)) := by
    refine List.Chain'.imp ?_ (chain'_and _ h1 h2)
    intro x y hxy
    rcases lt_or_eq_of_le hxy.1 with h | h
    · exact h
    · exfalso
      have := hxy.2
      rw [← h, hrefl x] at this
      exact Bool.noConfusion this
  exact List.chain'_iff_pairwise.mp h3

/-! ## Iterators and `lower_bound` -/

theorem lower_bound_nil (a : ℚ) : lower_bound [] a = 0 := rfl

theorem lower_bound_cons_of_lt {c a : ℚ} (cs : List ℚ) (h : c < a) :
    lower_bound (c :: cs) a = lower_bound cs a + 1 := by
  simp [lower_bound, List.takeWhile_cons, h]

theorem lower_bound_cons_of_not_lt {c a : ℚ} (cs : List ℚ) (h : ¬ c < a) :
    lower_bound (c :: cs) a = 0 := by
  simp [lower_bound, List.takeWhile_cons, h]

theorem deref_cons_succ (c : ℚ) (cs : List ℚ) (i : ℕ) : deref (c :: cs) (i + 1) = deref cs i := rfl

theorem deref_mem (v : List ℚ) (i : ℕ) (h : i < v.length) : deref v i ∈ v := by
  induction v generalizing i with
  | nil => exact absurd h (Nat.not_lt_zero _)
  | cons c cs ih =>
    cases i with
    | zero => exact List.mem_cons_self c cs
    | succ i => exact List.mem_cons_of_mem c (ih i (Nat.lt_of_succ_lt_succ h))

theorem exists_deref_of_mem (v : List ℚ) (c : ℚ) (h : c ∈ v) :
    ∃ i, i < v.length ∧ deref v i = c := by
  induction v with
  | nil => exact absurd h (List.not_mem_nil c)
  | cons d ds ih =>
    rcases List.mem_cons.mp h with h | h
    · exact ⟨0, Nat.succ_pos _, h ▸ rfl⟩
    · obtain ⟨i, hi, hd⟩ := ih h
      exact ⟨i + 1, Nat.succ_lt_succ hi, hd⟩

theorem lower_bound_le_length (v : List ℚ) (a : ℚ) : lower_bound v a ≤ v.length := by
  induction v with
  | nil => exact Nat.le_refl 0
  | cons c cs ih =>
    by_cases h : c < a
    · rw [lower_bound_cons_of_lt cs h]; exact Nat.succ_le_succ ih
    · rw [lower_bound_cons_of_not_lt cs h]; exact Nat.zero_le _

/-- Every element before the position returned by `lower_bound` is less than the key. -/
theorem deref_lt_of_lt_lower_bound (v : List ℚ) (a : ℚ) (i : ℕ) (h : i < lower_bound v a) :
    deref v i < a := by
  induction v generalizing i with
  | nil => exact absurd h (Nat.not_lt_zero _)
  | cons c cs ih =>
    by_cases hc : c < a
    · rw [lower_bound_cons_of_lt cs hc] at h
      cases i with
      | zero => exact hc
      | succ i => exact ih i (Nat.lt_of_succ_lt_succ h)
    · rw [lower_bound_cons_of_not_lt cs hc] at h
      exact absurd h (Nat.not_lt_zero _)

/-- The element at the position returned by `lower_bound` is not less than the key. -/
theorem le_deref_lower_bound (v : List ℚ) (a : ℚ) (h : lower_bound v a < v.length) :
    a ≤ deref v (lower_bound v a) := by
  induction v with
  | nil => exact absurd h (Nat.not_lt_zero _)
  | cons c cs ih =>
    by_cases hc : c < a
    · rw [lower_bound_cons_of_lt cs hc] at h ⊢
      exact ih (Nat.lt_of_succ_lt_succ h)
    · rw [lower_bound_cons_of_not_lt cs hc]
      exact not_lt.mp hc

theorem deref_mono (v : List ℚ) (hs : v.Sorted (fun x y => x ≤ y)) (i j : ℕ) (hij : i ≤ j)
    (hj : j < v.length) : deref v i ≤ deref v j := by
  induction v generalizing i j with
  | nil => exact absurd hj (Nat.not_lt_zero _)
  | cons c cs ih =>
    rw [List.sorted_cons] at hs
    cases j with
    | zero =>
      have : i = 0 := Nat.le_zero.mp hij
      subst this
      exact le_refl _
    | succ j =>
      cases i with
      | zero => exact hs.1 _ (deref_mem cs j (Nat.lt_of_succ_lt_succ hj))
      | succ i => exact ih hs.2 i j (Nat.le_of_succ_le_succ hij) (Nat.lt_of_succ_lt_succ hj)

/-- On an ascending sequence every element from the returned position on is not
less than the key. -/
theorem le_deref_of_lower_bound_le (v : List ℚ) (hs : v.Sorted (fun x y => x ≤ y)) (a : ℚ)
    (i : ℕ) (h : lower_bound v a ≤ i) (hi : i < v.length) : a ≤ deref v i :=
  le_trans (le_deref_lower_bound v a (lt_of_le_of_lt h hi)) (deref_mono v hs _ _ h hi)

theorem lt_of_lower_bound_eq_length (v : List ℚ) (a : ℚ) (h : lower_bound v a = v.length)
    (c : ℚ) (hc : c ∈ v) : c < a := by
  obtain ⟨i, hi, hd⟩ := exists_deref_of_mem v c hc
  rw [← hd]
  exact deref_lt_of_lt_lower_bound v a i (h ▸ hi)

theorem getLastD_eq_deref (v : List ℚ) : v.getLastD 0 = deref v (v.length - 1) := by
  rw [List.getLastD_eq_getLast?, List.getLast?_eq_getElem?]
  simp [deref]

/-! ## The delegate calls of `integrate` -/

theorem foldl_add_snd (g : ℕ → Traced) (l : List ℕ) (res : Traced) :
    (l.foldl (fun r x => r.add (g x)) res).2 = res.2 ++ l.flatMap (fun x => (g x).2) := by
  induction l generalizing res with
  | nil => simp
  | cons x xs ih =>
    rw [List.foldl_cons, ih]
    simp [Traced.add, List.flatMap_cons, List.append_assoc]

theorem integrate_h_snd (ce : ℚ → ℚ → Bool) (P : PiecewiseIntegral) (f : ℚ → ℚ) (a b : ℚ) :
    (P.integrate_h ce f a b).2 = if ce a b then [] else [(a, b)] := by
  unfold PiecewiseIntegral.integrate_h
  cases ce a b <;> rfl

theorem mem_integrate_h (ce : ℚ → ℚ → Bool) (P : PiecewiseIntegral) (f : ℚ → ℚ) (a b : ℚ)
    (call : Call) :
    call ∈ (P.integrate_h ce f a b).2 ↔ ce a b = false ∧ call = (a, b) := by
  rw [integrate_h_snd]
  cases ce a b <;> simp

theorem mem_wholeSegment (ce : ℚ → ℚ → Bool) (P : PiecewiseIntegral) (f : ℚ → ℚ) (a b : ℚ)
    (call : Call) (h : call ∈ (P.wholeSegment ce f a b).2) :
    ∃ tmp : ℚ, (tmp = 1 ∨ (tmp = P.eps_ ∧ P.criticalPoints_ ≠ [] ∧
        ce a (deref P.criticalPoints_ (P.criticalPoints_.length - 1)) = true)) ∧
      ce (a * tmp) b = false ∧ call = (a * tmp, b) := by
  unfold PiecewiseIntegral.wholeSegment at h
  rw [mem_integrate_h] at h
  refine ⟨_, ?_, h.1, h.2⟩
  by_cases he : P.criticalPoints_ = []
  · left; simp [he]
  · have hne : (!P.criticalPoints_.isEmpty) = true := by
      cases hcp : P.criticalPoints_ with
      | nil => exact absurd hcp he
      | cons _ _ => rfl
    by_cases hc : ce a (P.criticalPoints_.getLastD 0) = true
    · right
      refine ⟨?_, he, ?_⟩
      · rw [if_pos hne, if_pos hc]
      · rw [← getLastD_eq_deref]; exact hc
    · left; rw [if_pos hne, if_neg hc]

theorem mem_leadingSegment (ce : ℚ → ℚ → Bool) (P : PiecewiseIntegral) (f : ℚ → ℚ) (a b : ℚ)
    (a0 : ℕ) (call : Call) :
    call ∈ (P.leadingSegment ce f a b a0).2 ↔
      ce a (deref P.criticalPoints_ a0) = false ∧
      ce a (min (deref P.criticalPoints_ a0 / P.eps_) b) = false ∧
      call = (a, min (deref P.criticalPoints_ a0 / P.eps_) b) := by
  unfold PiecewiseIntegral.leadingSegment
  cases h : ce a (deref P.criticalPoints_ a0) <;> simp [mem_integrate_h]

theorem mem_trailingSegment (ce : ℚ → ℚ → Bool) (P : PiecewiseIntegral) (f : ℚ → ℚ) (b : ℚ)
    (b0 : ℕ) (call : Call) :
    call ∈ (P.trailingSegment ce f b b0).2 ↔
      b0 = P.criticalPoints_.length ∧
      ce (deref P.criticalPoints_ (b0 - 1)) b = false ∧
      ce (deref P.criticalPoints_ (b0 - 1) * P.eps_) b = false ∧
      call = (deref P.criticalPoints_ (b0 - 1) * P.eps_, b) := by
  unfold PiecewiseIntegral.trailingSegment
  by_cases hb : b0 = P.criticalPoints_.length
  · cases h : ce (deref P.criticalPoints_ (b0 - 1)) b <;> simp [hb, mem_integrate_h, h]
  · simp [hb]

theorem mem_interiorSegment (ce : ℚ → ℚ → Bool) (P : PiecewiseIntegral) (f : ℚ → ℚ) (b : ℚ)
    (x : ℕ) (call : Call) :
    call ∈ (P.interiorSegment ce f b x).2 ↔
      ce (deref P.criticalPoints_ x * P.eps_)
        (min (deref P.criticalPoints_ (x + 1) / P.eps_) b) = false ∧
      call = (deref P.criticalPoints_ x * P.eps_,
        min (deref P.criticalPoints_ (x + 1) / P.eps_) b) := by
  unfold PiecewiseIntegral.interiorSegment
  exact mem_integrate_h _ _ _ _ _ _

/-- The log of `integrate`, loop unrolled. -/
theorem integrate_snd (ce : ℚ → ℚ → Bool) (P : PiecewiseIntegral) (f : ℚ → ℚ) (a b : ℚ) :
    (P.integrate ce f a b).2 =
      if lower_bound P.criticalPoints_ a = P.criticalPoints_.length then
        (P.wholeSegment ce f a b).2
      else
        (P.leadingSegment ce f a b (lower_bound P.criticalPoints_ a)).2 ++
        (P.trailingSegment ce f b (lower_bound P.criticalPoints_ b)).2 ++
        (List.range' (lower_bound P.criticalPoints_ a)
          (P.lastIter (lower_bound P.criticalPoints_ b) - lower_bound P.criticalPoints_ a)).flatMap
          (fun x => (P.interiorSegment ce f b x).2) := by
  unfold PiecewiseIntegral.integrate
  by_cases h : lower_bound P.criticalPoints_ a = P.criticalPoints_.length
  · simp [h]
  · simp only [h, if_false]
    unfold PiecewiseIntegral.interiorLoop
    rw [foldl_add_snd]
    simp [Traced.add]

/-- Every delegate call of `integrate` comes from one of its four places. -/
theorem mem_integrate (ce : ℚ → ℚ → Bool) (P : PiecewiseIntegral) (f : ℚ → ℚ) (a b : ℚ)
    (call : Call) :
    call ∈ (P.integrate ce f a b).2 ↔
      (lower_bound P.criticalPoints_ a = P.criticalPoints_.length ∧
        call ∈ (P.wholeSegment ce f a b).2) ∨
      (lower_bound P.criticalPoints_ a < P.criticalPoints_.length ∧
        (call ∈ (P.leadingSegment ce f a b (lower_bound P.criticalPoints_ a)).2 ∨
         call ∈ (P.trailingSegment ce f b (lower_bound P.criticalPoints_ b)).2 ∨
         ∃ x, lower_bound P.criticalPoints_ a ≤ x ∧
           x < P.lastIter (lower_bound P.criticalPoints_ b) ∧
           call ∈ (P.interiorSegment ce f b x).2)) := by
  rw [integrate_snd]
  have hle := lower_bound_le_length P.criticalPoints_ a
  by_cases h : lower_bound P.criticalPoints_ a = P.criticalPoints_.length
  · simp [h]
  · have hlt : lower_bound P.criticalPoints_ a < P.criticalPoints_.length :=
      lt_of_le_of_ne hle h
    simp only [h, if_false, false_and, false_or, hlt, true_and, List.mem_append,
      List.mem_flatMap, List.mem_range'_1, or_assoc]
    constructor
    · rintro (h1 | h1 | ⟨x, ⟨hx1, hx2⟩, hx3⟩)
      · exact Or.inl h1
      · exact Or.inr (Or.inl h1)
      · exact Or.inr (Or.inr ⟨x, hx1, by omega, hx3⟩)
    · rintro (h1 | h1 | ⟨x, hx1, hx2, hx3⟩)
      · exact Or.inl h1
      · exact Or.inr (Or.inl h1)
      · exact Or.inr (Or.inr ⟨x, ⟨hx1, by omega⟩, hx3⟩)

theorem lastIter_le_length (P : PiecewiseIntegral) (b : ℚ) :
    P.lastIter (lower_bound P.criticalPoints_ b) ≤ P.criticalPoints_.length := by
  have := lower_bound_le_length P.criticalPoints_ b
  unfold PiecewiseIntegral.lastIter
  split <;> omega

/-- Inside the loop both `x` and `x + 1` are valid iterators. -/
theorem succ_lt_length_of_lt_lastIter (P : PiecewiseIntegral) (b : ℚ) (x : ℕ)
    (hx : x < P.lastIter (lower_bound P.criticalPoints_ b)) :
    x + 1 < P.criticalPoints_.length := by
  have := lower_bound_le_length P.criticalPoints_ b
  unfold PiecewiseIntegral.lastIter at hx
  split at hx <;> omega

/-- Inside the loop the critical point at `x` is less than `b`. -/
theorem deref_lt_of_lt_lastIter (P : PiecewiseIntegral) (b : ℚ) (x : ℕ)
    (hx : x < P.lastIter (lower_bound P.criticalPoints_ b)) :
    deref P.criticalPoints_ x < b := by
  apply deref_lt_of_lt_lower_bound
  unfold PiecewiseIntegral.lastIter at hx
  split at hx <;> omega

theorem chain'_deref {R : ℚ → ℚ → Prop} (v : List ℚ) (h : List.Chain' R v) (i : ℕ)
    (hi : i + 1 < v.length) : R (deref v i) (deref v (i + 1)) := by
  induction v generalizing i with
  | nil => exact absurd hi (Nat.not_lt_zero _)
  | cons c cs ih =>
    cases cs with
    | nil => exact absurd hi (by simp)
    | cons d ds =>
      rw [List.chain'_cons] at h
      cases i with
      | zero => exact h.1
      | succ i => exact ih h.2 i (Nat.lt_of_succ_lt_succ hi)

theorem mem_unique_sort (pred : ℚ → ℚ → Bool) (v : List ℚ) (c : ℚ)
    (h : c ∈ unique pred (sort v)) : c ∈ v :=
  (List.perm_insertionSort (fun x y : ℚ => x ≤ y) v).subset
    ((unique_sublist pred (sort v)).subset h)

/-- When `close_enough` holds from a positive point up to its nudged value, a stored
critical point nudged upwards stays below every later stored critical point. -/
theorem nudge_lt_later (pred : ℚ → ℚ → Bool) (e : ℚ)
    (hnear : ∀ x y, 0 < x → x ≤ y → y ≤ x * e → pred x y = true)
    (v : List ℚ) (hpos : ∀ c ∈ v, 0 < c) (i j : ℕ) (hij : i < j)
    (hj : j < (unique pred (sort v)).length) :
    deref (unique pred (sort v)) i * e < deref (unique pred (sort v)) j := by
  have hs := unique_sort_sorted pred v
  have hi1 : i + 1 < (unique pred (sort v)).length := by omega
  have hstep : deref (unique pred (sort v)) i * e < deref (unique pred (sort v)) (i + 1) := by
    by_contra hcon
    have hne := chain'_deref _ (unique_chain' pred (sort v)) i hi1
    have hle := deref_mono _ hs i (i + 1) (Nat.le_succ i) hi1
    have hp : 0 < deref (unique pred (sort v)) i :=
      hpos _ (mem_unique_sort pred v _ (deref_mem _ _ (by omega)))
    rw [hnear _ _ hp hle (not_lt.mp hcon)] at hne
    exact Bool.noConfusion hne
  exact lt_of_lt_of_le hstep (deref_mono _ hs (i + 1) j hij hj)

/-- In exact arithmetic, with a factor `eps_ > 1` and strictly positive ascending critical
points, no critical point lies inside the interval of a delegate call. -/
theorem calls_exclude_positive_points (ce : ℚ → ℚ → Bool) (P : PiecewiseIntegral)
    (f : ℚ → ℚ) (a b : ℚ) (he : 1 < P.eps_)
    (hs : P.criticalPoints_.Sorted (fun x y => x ≤ y))
    (hp : ∀ c ∈ P.criticalPoints_, 0 < c)
    (call : Call) (hcall : call ∈ (P.integrate ce f a b).2)
    (c : ℚ) (hc : c ∈ P.criticalPoints_) : ¬ (call.1 ≤ c ∧ c ≤ call.2) := by
  have hc0 : 0 < c := hp c hc
  obtain ⟨i, hi, hci⟩ := exists_deref_of_mem _ c hc
  rw [mem_integrate] at hcall
  rintro ⟨hlo, hup⟩
  rcases hcall with ⟨h0, h⟩ | ⟨h0, h | h | ⟨x, hx0, hx, h⟩⟩
  · have hca : c < a := lt_of_lower_bound_eq_length _ a h0 c hc
    obtain ⟨tmp, htmp, _, hcl⟩ := mem_wholeSegment _ _ _ _ _ _ h
    rw [hcl] at hlo
    have hlo' : a * tmp ≤ c := hlo
    rcases htmp with h1 | h1
    · rw [h1, mul_one] at hlo'
      exact absurd hca (not_lt.mpr hlo')
    · rw [h1.1] at hlo'
      have := lt_mul_of_one_lt_right (lt_trans hc0 hca) he
      linarith
  · rw [mem_leadingSegment] at h
    rw [h.2.2] at hlo hup
    have hlo' : a ≤ c := hlo
    have hup' : c ≤ min (deref P.criticalPoints_ (lower_bound P.criticalPoints_ a) / P.eps_) b :=
      hup
    have hD0 : 0 < deref P.criticalPoints_ (lower_bound P.criticalPoints_ a) :=
      hp _ (deref_mem _ _ h0)
    by_cases hia : i < lower_bound P.criticalPoints_ a
    · have hca : c < a := hci ▸ deref_lt_of_lt_lower_bound _ a i hia
      exact absurd hca (not_lt.mpr hlo')
    · have hDc : deref P.criticalPoints_ (lower_bound P.criticalPoints_ a) ≤ c :=
        hci ▸ deref_mono _ hs _ i (not_lt.mp hia) hi
      have := div_lt_self hD0 he
      have := le_trans hup' (min_le_left _ _)
      linarith
  · rw [mem_trailingSegment] at h
    rw [h.2.2.2] at hlo
    have hlo' : deref P.criticalPoints_ (lower_bound P.criticalPoints_ b - 1) * P.eps_ ≤ c :=
      hlo
    have hL : c ≤ deref P.criticalPoints_ (lower_bound P.criticalPoints_ b - 1) :=
      hci ▸ deref_mono _ hs i _ (by omega) (by omega)
    have := lt_mul_of_one_lt_right (lt_of_lt_of_le hc0 hL) he
    linarith
  · have hx1 := succ_lt_length_of_lt_lastIter P b x hx
    have hx0' : 0 < deref P.criticalPoints_ x := hp _ (deref_mem _ _ (by omega))
    have hx1' : 0 < deref P.criticalPoints_ (x + 1) := hp _ (deref_mem _ _ hx1)
    rw [mem_interiorSegment] at h
    rw [h.2] at hlo hup
    have hlo' : deref P.criticalPoints_ x * P.eps_ ≤ c := hlo
    have hup' : c ≤ min (deref P.criticalPoints_ (x + 1) / P.eps_) b := hup
    by_cases hix : i ≤ x
    · have hcx : c ≤ deref P.criticalPoints_ x := hci ▸ deref_mono _ hs i x hix (by omega)
      have := lt_mul_of_one_lt_right hx0' he
      linarith
    · have hxc : deref P.criticalPoints_ (x + 1) ≤ c :=
        hci ▸ deref_mono _ hs (x + 1) i (by omega) hi
      have := div_lt_self hx1' he
      have := le_trans hup' (min_le_left _ _)
      linarith

theorem integrate_h_length_le (ce : ℚ → ℚ → Bool) (P : PiecewiseIntegral) (f : ℚ → ℚ)
    (a b : ℚ) : (P.integrate_h ce f a b).2.length ≤ 1 := by
  rw [integrate_h_snd]
  split <;> simp

theorem length_flatMap_le (g : ℕ → List Call) (hg : ∀ x, (g x).length ≤ 1) (l : List ℕ) :
    (l.flatMap g).length ≤ l.length := by
  induction l with
  | nil => simp
  | cons x xs ih =>
    rw [List.flatMap_cons, List.length_append, List.length_cons]
    have := hg x
    omega

/-- The positions `i, ..., j - 1` of a sequence, when all their elements satisfy `p`,
are counted by the filter. -/
theorem sub_le_length_filter (p : ℚ → Bool) (v : List ℚ) (i j : ℕ) (hj : j ≤ v.length)
    (h : ∀ k, i ≤ k → k < j → p (deref v k) = true) : j - i ≤ (v.filter p).length := by
  induction v generalizing i j with
  | nil =>
    have : j = 0 := Nat.le_zero.mp hj
    omega
  | cons c cs ih =>
    cases j with
    | zero => omega
    | succ j =>
      have hj' : j ≤ cs.length := Nat.le_of_succ_le_succ hj
      cases i with
      | zero =>
        have hc : p c = true := h 0 (Nat.le_refl 0) (Nat.succ_pos j)
        have := ih 0 j hj' (fun k _ hk => h (k + 1) (Nat.zero_le _) (Nat.succ_lt_succ hk))
        rw [List.filter_cons_of_pos hc, List.length_cons]
        omega
      | succ i =>
        have := ih i j hj'
          (fun k hik hk => h (k + 1) (Nat.succ_le_succ hik) (Nat.succ_lt_succ hk))
        have hle : (cs.filter p).length ≤ ((c :: cs).filter p).length := by
          rw [List.filter_cons]
          split <;> simp
        omega

/-! ## Rounding to `double` -/

/-- The floor of `Rat.floor` is the floor of the ordered field. -/
theorem ratFloor_eq (x : ℚ) : Rat.floor x = ⌊x⌋ := rfl

/-- The nearest integer is at most half above the value. -/
theorem roundHalfEven_le (x : ℚ) : (roundHalfEven x : ℚ) ≤ x + 1 / 2 := by
  have h1 := Int.floor_le x
  have h2 := Int.lt_floor_add_one x
  unfold roundHalfEven
  rw [ratFloor_eq]
  split_ifs with ha hb hc
  · linarith
  · push_cast; linarith
  · linarith
  · push_cast; linarith

/-- The nearest integer is at most half below the value. -/
theorem le_roundHalfEven (x : ℚ) : x - 1 / 2 ≤ (roundHalfEven x : ℚ) := by
  have h1 := Int.floor_le x
  have h2 := Int.lt_floor_add_one x
  unfold roundHalfEven
  rw [ratFloor_eq]
  split_ifs with ha hb hc
  · linarith
  · push_cast; linarith
  · linarith
  · push_cast; linarith

/-- An integer rounds to itself. -/
theorem roundHalfEven_intCast (n : ℤ) : roundHalfEven (n : ℚ) = n := by
  unfold roundHalfEven
  rw [ratFloor_eq, Int.floor_intCast]
  simp

/-- Rounding to the nearest integer is monotone. -/
theorem roundHalfEven_mono (x y : ℚ) (h : x ≤ y) : roundHalfEven x ≤ roundHalfEven y := by
  have hx1 := Int.floor_le x
  have hx2 := Int.lt_floor_add_one x
  have hy1 := Int.floor_le y
  have hy2 := Int.lt_floor_add_one y
  have hf : ⌊x⌋ ≤ ⌊y⌋ := Int.floor_mono h
  have hxle : roundHalfEven x ≤ ⌊x⌋ + 1 := by
    unfold roundHalfEven
    rw [ratFloor_eq]
    split_ifs <;> omega
  have hyge : ⌊y⌋ ≤ roundHalfEven y := by
    unfold roundHalfEven
    rw [ratFloor_eq]
    split_ifs <;> omega
  rcases lt_or_eq_of_le hf with hlt | heq
  · omega
  · unfold roundHalfEven
    rw [ratFloor_eq, ratFloor_eq, ← heq]
    have hxy : x - (⌊x⌋ : ℚ) ≤ y - (⌊x⌋ : ℚ) := by linarith
    split_ifs with a1 a2 a3 a4 a5 a6 a7 a8 a9 <;> first | omega | (exfalso; linarith)

/-- The test of the exponent search compares `|x|` with `2^(k - 1021)`. -/
theorem quantumTest_iff (x : ℚ) (k : ℕ) :
    x.num.natAbs * 2 ^ (1021 - k) < 2 ^ (k - 1021) * x.den ↔
      |x| < (2 : ℚ) ^ ((k : ℤ) - 1021) := by
  have hden : (0 : ℚ) < x.den := by exact_mod_cast x.den_pos
  have hx : |x| = (x.num.natAbs : ℚ) / (x.den : ℚ) := by
    conv_lhs => rw [← Rat.num_div_den x]
    rw [abs_div, abs_of_pos hden, Nat.cast_natAbs, Int.cast_abs]
  have hp : (2 : ℚ) ^ ((k : ℤ) - 1021) = (2 : ℚ) ^ (k - 1021) / (2 : ℚ) ^ (1021 - k) := by
    rcases le_total k 1021 with h | h
    · have e : (k : ℤ) - 1021 = -((1021 - k : ℕ) : ℤ) := by omega
      rw [e, zpow_neg, zpow_natCast, Nat.sub_eq_zero_of_le h, pow_zero, one_div]
    · have e : (k : ℤ) - 1021 = ((k - 1021 : ℕ) : ℤ) := by omega
      rw [e, zpow_natCast, Nat.sub_eq_zero_of_le h, pow_zero, div_one]
  rw [hx, hp, div_lt_div_iff₀ hden (by positivity)]
  constructor
  · intro h
    exact_mod_cast h
  · intro h
    exact_mod_cast h

/-- What the exponent search finds: `|x| < 2^(q + 53)`, and `2^(q + 52) <= |x|` unless
`q` is the exponent of the subnormal values. -/
theorem quantumExponent_eq_some (x : ℚ) (q : ℤ) (h : quantumExponent x = some q) :
    -1074 ≤ q ∧ q ≤ 971 ∧ |x| < (2 : ℚ) ^ (q + 53) ∧
      (-1074 < q → (2 : ℚ) ^ (q + 52) ≤ |x|) := by
  unfold quantumExponent at h
  rw [Option.map_eq_some'] at h
  obtain ⟨k, hk, hq⟩ := h
  rw [List.find?_range_eq_some] at hk
  obtain ⟨hpk, hmem, hlt⟩ := hk
  rw [List.mem_range] at hmem
  rw [decide_eq_true_iff, quantumTest_iff] at hpk
  refine ⟨by omega, by omega, ?_, ?_⟩
  · have e : q + 53 = (k : ℤ) - 1021 := by omega
    rw [e]
    exact hpk
  · intro hq1
    have hk1 : k - 1 < k := by omega
    have := hlt (k - 1) hk1
    rw [Bool.not_eq_true', decide_eq_false_iff_not, quantumTest_iff, not_lt] at this
    have e : q + 52 = ((k - 1 : ℕ) : ℤ) - 1021 := by omega
    rw [e]
    exact this

/-- The exponent search fails only from `2^1024` on. -/
theorem quantumExponent_eq_none (x : ℚ) (h : quantumExponent x = none) :
    (2 : ℚ) ^ (1024 : ℤ) ≤ |x| := by
  unfold quantumExponent at h
  rw [Option.map_eq_none', List.find?_eq_none] at h
  have := h 2045 (by simp)
  rw [decide_eq_true_iff, quantumTest_iff, not_lt] at this
  exact this

/-- The exponent depends on the magnitude only. -/
theorem quantumExponent_neg (x : ℚ) : quantumExponent (-x) = quantumExponent x := by
  unfold quantumExponent
  simp

/-- Rounding to the nearest integer, ties to even, is odd. -/
theorem roundHalfEven_neg (y : ℚ) : roundHalfEven (-y) = -roundHalfEven y := by
  have h1 := Int.floor_le y
  have h2 := Int.lt_floor_add_one y
  by_cases hint : (⌊y⌋ : ℚ) = y
  · rw [← hint, ← Int.cast_neg, roundHalfEven_intCast, roundHalfEven_intCast]
  · have hlt : (⌊y⌋ : ℚ) < y := lt_of_le_of_ne h1 hint
    have hfl : ⌊-y⌋ = -⌊y⌋ - 1 := by
      rw [Int.floor_eq_iff]
      push_cast
      constructor <;> linarith
    unfold roundHalfEven
    rw [ratFloor_eq, ratFloor_eq, hfl]
    push_cast
    split_ifs with a1 a2 a3 a4 a5 a6 a7 a8 a9 <;>
      first | omega | (exfalso; linarith)

/-- Rounding to `double` is odd. -/
theorem roundToDouble_neg (x : ℚ) : roundToDouble (-x) = -roundToDouble x := by
  unfold roundToDouble
  rw [quantumExponent_neg]
  cases quantumExponent x with
  | none => rfl
  | some q =>
    show (roundHalfEven (-x / (2 : ℚ) ^ q) : ℚ) * (2 : ℚ) ^ q =
      -((roundHalfEven (x / (2 : ℚ) ^ q) : ℚ) * (2 : ℚ) ^ q)
    rw [neg_div, roundHalfEven_neg]
    push_cast
    ring

/-- The rounded value when the exponent search succeeds. -/
theorem roundToDouble_of_some (x : ℚ) (q : ℤ) (h : quantumExponent x = some q) :
    roundToDouble x = (roundHalfEven (x / (2 : ℚ) ^ q) : ℚ) * (2 : ℚ) ^ q := by
  unfold roundToDouble
  rw [h]

/-- The rounded value when the exponent search fails. -/
theorem roundToDouble_of_none (x : ℚ) (h : quantumExponent x = none) : roundToDouble x = x := by
  unfold roundToDouble
  rw [h]

/-- The rounded value is within half a spacing of the value itself. -/
theorem roundToDouble_near (x : ℚ) (q : ℤ) (h : quantumExponent x = some q) :
    x - (2 : ℚ) ^ q / 2 ≤ roundToDouble x ∧ roundToDouble x ≤ x + (2 : ℚ) ^ q / 2 := by
  have hT : (0 : ℚ) < (2 : ℚ) ^ q := zpow_pos (by norm_num) q
  rw [roundToDouble_of_some x q h]
  have h1 := le_roundHalfEven (x / (2 : ℚ) ^ q)
  have h2 := roundHalfEven_le (x / (2 : ℚ) ^ q)
  have e : x = x / (2 : ℚ) ^ q * (2 : ℚ) ^ q := by field_simp
  constructor
  · calc x - (2 : ℚ) ^ q / 2 = (x / (2 : ℚ) ^ q - 1 / 2) * (2 : ℚ) ^ q := by
          rw [sub_mul, ← e]; ring
      _ ≤ _ := mul_le_mul_of_nonneg_right h1 hT.le
  · calc _ ≤ (x / (2 : ℚ) ^ q + 1 / 2) * (2 : ℚ) ^ q := mul_le_mul_of_nonneg_right h2 hT.le
      _ = x + (2 : ℚ) ^ q / 2 := by rw [add_mul, ← e]; ring

/-- A nonnegative value does not round beyond the upper end of its binade. -/
theorem roundToDouble_le_pow (x : ℚ) (q : ℤ) (h : quantumExponent x = some q) (hx : 0 ≤ x) :
    roundToDouble x ≤ (2 : ℚ) ^ (q + 53) := by
  have hT : (0 : ℚ) < (2 : ℚ) ^ q := zpow_pos (by norm_num) q
  obtain ⟨_, _, hlt, _⟩ := quantumExponent_eq_some x q h
  rw [abs_of_nonneg hx] at hlt
  rw [roundToDouble_of_some x q h, zpow_add₀ (by norm_num : (2 : ℚ) ≠ 0), mul_comm ((2 : ℚ) ^ q)]
  apply mul_le_mul_of_nonneg_right _ hT.le
  have hle : x / (2 : ℚ) ^ q ≤ (((2 : ℤ) ^ 53 : ℤ) : ℚ) := by
    rw [div_le_iff₀ hT]
    rw [zpow_add₀ (by norm_num : (2 : ℚ) ≠ 0)] at hlt
    push_cast
    have : ((2 : ℚ) ^ (53 : ℤ)) = (2 : ℚ) ^ 53 := by norm_cast
    rw [this] at hlt
    linarith
  have := roundHalfEven_mono _ _ hle
  rw [roundHalfEven_intCast] at this
  have h2 : ((roundHalfEven (x / (2 : ℚ) ^ q) : ℤ) : ℚ) ≤ (((2 : ℤ) ^ 53 : ℤ) : ℚ) := by
    exact_mod_cast this
  calc _ ≤ (((2 : ℤ) ^ 53 : ℤ) : ℚ) := h2
    _ = (2 : ℚ) ^ (53 : ℤ) := by norm_cast

/-- A nonnegative normal value does not round below the lower end of its binade. -/
theorem pow_le_roundToDouble (x : ℚ) (q : ℤ) (h : quantumExponent x = some q) (hx : 0 ≤ x)
    (hq : -1074 < q) : (2 : ℚ) ^ (q + 52) ≤ roundToDouble x := by
  have hT : (0 : ℚ) < (2 : ℚ) ^ q := zpow_pos (by norm_num) q
  obtain ⟨_, _, _, hge⟩ := quantumExponent_eq_some x q h
  have hge := hge hq
  rw [abs_of_nonneg hx] at hge
  rw [roundToDouble_of_some x q h, zpow_add₀ (by norm_num : (2 : ℚ) ≠ 0), mul_comm ((2 : ℚ) ^ q)]
  apply mul_le_mul_of_nonneg_right _ hT.le
  have hle : (((2 : ℤ) ^ 52 : ℤ) : ℚ) ≤ x / (2 : ℚ) ^ q := by
    rw [le_div_iff₀ hT]
    rw [zpow_add₀ (by norm_num : (2 : ℚ) ≠ 0)] at hge
    push_cast
    have : ((2 : ℚ) ^ (52 : ℤ)) = (2 : ℚ) ^ 52 := by norm_cast
    rw [this] at hge
    linarith
  have := roundHalfEven_mono _ _ hle
  rw [roundHalfEven_intCast] at this
  have h2 : (((2 : ℤ) ^ 52 : ℤ) : ℚ) ≤ ((roundHalfEven (x / (2 : ℚ) ^ q) : ℤ) : ℚ) := by
    exact_mod_cast this
  calc (2 : ℚ) ^ (52 : ℤ) = (((2 : ℤ) ^ 52 : ℤ) : ℚ) := by norm_cast
    _ ≤ _ := h2

/-- Rounding to `double` is monotone on the nonnegative values. -/
theorem roundToDouble_mono_of_nonneg (x y : ℚ) (hx : 0 ≤ x) (hxy : x ≤ y) :
    roundToDouble x ≤ roundToDouble y := by
  have hy : 0 ≤ y := le_trans hx hxy
  have h2 : (1 : ℚ) ≤ 2 := by norm_num
  cases hqx : quantumExponent x with
  | none =>
    cases hqy : quantumExponent y with
    | none => rw [roundToDouble_of_none x hqx, roundToDouble_of_none y hqy]; exact hxy
    | some qy =>
      exfalso
      have h1 := quantumExponent_eq_none x hqx
      obtain ⟨_, hle, hlt, _⟩ := quantumExponent_eq_some y qy hqy
      rw [abs_of_nonneg hx] at h1
      rw [abs_of_nonneg hy] at hlt
      have : (2 : ℚ) ^ (qy + 53) ≤ (2 : ℚ) ^ (1024 : ℤ) := zpow_le_zpow_right₀ h2 (by omega)
      linarith
  | some qx =>
    obtain ⟨hx0, hx1, hx2, hx3⟩ := quantumExponent_eq_some x qx hqx
    rw [abs_of_nonneg hx] at hx2 hx3
    cases hqy : quantumExponent y with
    | none =>
      have h1 := quantumExponent_eq_none y hqy
      rw [abs_of_nonneg hy] at h1
      rw [roundToDouble_of_none y hqy]
      have := roundToDouble_le_pow x qx hqx hx
      have : (2 : ℚ) ^ (qx + 53) ≤ (2 : ℚ) ^ (1024 : ℤ) := zpow_le_zpow_right₀ h2 (by omega)
      linarith
    | some qy =>
      obtain ⟨hy0, hy1, hy2, hy3⟩ := quantumExponent_eq_some y qy hqy
      rw [abs_of_nonneg hy] at hy2 hy3
      have hq : qx ≤ qy := by
        by_contra hcon
        have hlt : qy < qx := not_le.mp hcon
        have h3 := hx3 (by omega)
        have : (2 : ℚ) ^ (qy + 53) ≤ (2 : ℚ) ^ (qx + 52) := zpow_le_zpow_right₀ h2 (by omega)
        linarith
      rcases lt_or_eq_of_le hq with hlt | heq
      · have ha := roundToDouble_le_pow x qx hqx hx
        have hb := pow_le_roundToDouble y qy hqy hy (by omega)
        have : (2 : ℚ) ^ (qx + 53) ≤ (2 : ℚ) ^ (qy + 52) := zpow_le_zpow_right₀ h2 (by omega)
        linarith
      · subst heq
        have hT : (0 : ℚ) < (2 : ℚ) ^ qx := zpow_pos (by norm_num) qx
        rw [roundToDouble_of_some x qx hqx, roundToDouble_of_some y qx hqy]
        apply mul_le_mul_of_nonneg_right _ hT.le
        have := roundHalfEven_mono _ _ (div_le_div_of_nonneg_right hxy hT.le)
        exact_mod_cast this

/-- A nonnegative value rounds to a nonnegative `double`. -/
theorem roundToDouble_nonneg (x : ℚ) (hx : 0 ≤ x) : 0 ≤ roundToDouble x := by
  cases hq : quantumExponent x with
  | none => rw [roundToDouble_of_none x hq]; exact hx
  | some q =>
    have hT : (0 : ℚ) < (2 : ℚ) ^ q := zpow_pos (by norm_num) q
    rw [roundToDouble_of_some x q hq]
    apply mul_nonneg _ hT.le
    have := roundHalfEven_mono 0 _ (div_nonneg hx hT.le)
    have h0 : roundHalfEven (0 : ℚ) = 0 := by
      have := roundHalfEven_intCast 0
      simpa using this
    rw [h0] at this
    exact_mod_cast this

/-- Rounding to `double` is monotone. -/
theorem roundToDouble_mono (x y : ℚ) (hxy : x ≤ y) : roundToDouble x ≤ roundToDouble y := by
  rcases le_total 0 x with hx | hx
  · exact roundToDouble_mono_of_nonneg x y hx hxy
  · rcases le_total 0 y with hy | hy
    · have h1 := roundToDouble_nonneg y hy
      have h2 := roundToDouble_nonneg (-x) (by linarith)
      rw [roundToDouble_neg] at h2
      linarith
    · have := roundToDouble_mono_of_nonneg (-y) (-x) (by linarith) (by linarith)
      rw [roundToDouble_neg, roundToDouble_neg] at this
      linarith

/-- The smallest normal `double` as a fraction. -/
theorem two_zpow_neg_1022 : (2 : ℚ) ^ (-1022 : ℤ) = 1 / 2 ^ 1022 := by
  rw [zpow_neg, one_div]
  norm_cast

/-- Fifty-two binades up. -/
theorem two_zpow_add_52 (q : ℤ) : (2 : ℚ) ^ (q + 52) = (2 : ℚ) ^ q * 2 ^ 52 := by
  rw [zpow_add₀ (by norm_num : (2 : ℚ) ≠ 0)]
  norm_cast

/-- A value of at least `2^-1022`, the smallest normal `double`, nudged upwards by the
factor `1 + 2^-52` rounds to a `double` above the value. -/
theorem lt_roundToDouble_nudge (c : ℚ) (hc : 1 / 2 ^ 1022 ≤ c) :
    c < roundToDouble (c * (1 + QL_EPSILON)) := by
  have hc0 : 0 < c := lt_of_lt_of_le (by positivity) hc
  unfold QL_EPSILON
  cases hq : quantumExponent (c * (1 + 1 / 2 ^ 52)) with
  | none =>
    rw [roundToDouble_of_none _ hq]
    have : (0 : ℚ) < c * (1 / 2 ^ 52) := by positivity
    linarith
  | some q =>
    obtain ⟨hq0, _, _, hge⟩ := quantumExponent_eq_some _ q hq
    have hnear := (roundToDouble_near _ q hq).1
    have hx0 : (0 : ℚ) ≤ c * (1 + 1 / 2 ^ 52) := by positivity
    have hT : (0 : ℚ) < (2 : ℚ) ^ q := zpow_pos (by norm_num) q
    rcases eq_or_lt_of_le hq0 with heq | hlt
    · -- the subnormal spacing
      rw [← heq] at hnear
      have hu : (2 : ℚ) ^ (-1074 + 52 : ℤ) = (2 : ℚ) ^ (-1074 : ℤ) * 2 ^ 52 := two_zpow_add_52 _
      have hu' : (2 : ℚ) ^ (-1074 + 52 : ℤ) = 1 / 2 ^ 1022 := by
        rw [← two_zpow_neg_1022]; norm_num
      have hU : (0 : ℚ) < (2 : ℚ) ^ (-1074 : ℤ) := zpow_pos (by norm_num) _
      have h1 : (2 : ℚ) ^ (-1074 : ℤ) * 2 ^ 52 ≤ c := by rw [← hu, hu']; exact hc
      have h2 : (2 : ℚ) ^ (-1074 : ℤ) ≤ c * (1 / 2 ^ 52) := by
        rw [mul_one_div, le_div_iff₀ (by positivity)]
        exact h1
      linarith
    · have hge := hge hlt
      rw [abs_of_nonneg hx0, two_zpow_add_52] at hge
      have h1 : (2 : ℚ) ^ q / 2 ≤ c * (1 + 1 / 2 ^ 52) * (1 / 2 ^ 53) := by
        have : (2 : ℚ) ^ q / 2 = (2 : ℚ) ^ q * 2 ^ 52 * (1 / 2 ^ 53) := by ring
        rw [this]
        exact mul_le_mul_of_nonneg_right hge (by positivity)
      have h2 : c * 1 < c * ((1 + 1 / 2 ^ 52) * (1 - 1 / 2 ^ 53)) :=
        mul_lt_mul_of_pos_left (by norm_num) hc0
      have h3 : c * (1 + 1 / 2 ^ 52) - c * (1 + 1 / 2 ^ 52) * (1 / 2 ^ 53) =
          c * ((1 + 1 / 2 ^ 52) * (1 - 1 / 2 ^ 53)) := by ring
      linarith

/-- A value of at least `2^-1022`, the smallest normal `double`, nudged downwards by the
factor `1 + 2^-52` rounds to a `double` below the value. -/
theorem roundToDouble_nudge_lt (c : ℚ) (hc : 1 / 2 ^ 1022 ≤ c) :
    roundToDouble (c / (1 + QL_EPSILON)) < c := by
  have hc0 : 0 < c := lt_of_lt_of_le (by positivity) hc
  unfold QL_EPSILON
  have hE : (0 : ℚ) < 1 + 1 / 2 ^ 52 := by positivity
  have hxc : c / (1 + 1 / 2 ^ 52) < c := by
    rw [div_lt_iff₀ hE]
    have : (0 : ℚ) < c * (1 / 2 ^ 52) := by positivity
    linarith
  cases hq : quantumExponent (c / (1 + 1 / 2 ^ 52)) with
  | none =>
    rw [roundToDouble_of_none _ hq]
    exact hxc
  | some q =>
    obtain ⟨hq0, _, _, hge⟩ := quantumExponent_eq_some _ q hq
    have hnear := (roundToDouble_near _ q hq).2
    have hx0 : (0 : ℚ) ≤ c / (1 + 1 / 2 ^ 52) := by positivity
    have hT : (0 : ℚ) < (2 : ℚ) ^ q := zpow_pos (by norm_num) q
    rcases eq_or_lt_of_le hq0 with heq | hlt
    · rw [← heq] at hnear
      have hu : (2 : ℚ) ^ (-1074 + 52 : ℤ) = (2 : ℚ) ^ (-1074 : ℤ) * 2 ^ 52 := two_zpow_add_52 _
      have hu' : (2 : ℚ) ^ (-1074 + 52 : ℤ) = 1 / 2 ^ 1022 := by
        rw [← two_zpow_neg_1022]; norm_num
      have hU : (0 : ℚ) < (2 : ℚ) ^ (-1074 : ℤ) := zpow_pos (by norm_num) _
      have h1 : (2 : ℚ) ^ (-1074 : ℤ) * 2 ^ 52 ≤ c := by rw [← hu, hu']; exact hc
      -- `c - c / E = (c / 2^52) / E`, more than half of `2^-1074`
      have h2 : c / (1 + 1 / 2 ^ 52) + (2 : ℚ) ^ (-1074 : ℤ) / 2 < c := by
        have h3 : c - c / (1 + 1 / 2 ^ 52) = c * (1 / 2 ^ 52) / (1 + 1 / 2 ^ 52) := by
          field_simp
          ring
        have h4 : (2 : ℚ) ^ (-1074 : ℤ) / 2 < c * (1 / 2 ^ 52) / (1 + 1 / 2 ^ 52) := by
          rw [lt_div_iff₀ hE]
          have h5 : (2 : ℚ) ^ (-1074 : ℤ) ≤ c * (1 / 2 ^ 52) := by
            rw [mul_one_div, le_div_iff₀ (by positivity)]
            exact h1
          have h6 : (2 : ℚ) ^ (-1074 : ℤ) / 2 * (1 + 1 / 2 ^ 52) < (2 : ℚ) ^ (-1074 : ℤ) := by
            have : (2 : ℚ) ^ (-1074 : ℤ) / 2 * (1 + 1 / 2 ^ 52) =
                (2 : ℚ) ^ (-1074 : ℤ) * ((1 + 1 / 2 ^ 52) / 2) := by ring
            rw [this]
            exact mul_lt_of_lt_one_right hU (by norm_num)
          linarith
        linarith
      linarith
    · have hge := hge hlt
      rw [abs_of_nonneg hx0, two_zpow_add_52] at hge
      have h1 : (2 : ℚ) ^ q / 2 ≤ c / (1 + 1 / 2 ^ 52) * (1 / 2 ^ 53) := by
        have : (2 : ℚ) ^ q / 2 = (2 : ℚ) ^ q * 2 ^ 52 * (1 / 2 ^ 53) := by ring
        rw [this]
        exact mul_le_mul_of_nonneg_right hge (by positivity)
      have h3 : c / (1 + 1 / 2 ^ 52) + c / (1 + 1 / 2 ^ 52) * (1 / 2 ^ 53) =
          c * ((1 + 1 / 2 ^ 53) / (1 + 1 / 2 ^ 52)) := by
        field_simp
        ring
      have h2 : c * ((1 + 1 / 2 ^ 53) / (1 + 1 / 2 ^ 52)) < c * 1 :=
        mul_lt_mul_of_pos_left (by norm_num) hc0
      linarith

/-! ## The delegate calls in rounded arithmetic -/

theorem foldl_addRounded_snd (fl : ℚ → ℚ) (g : ℕ → Traced) (l : List ℕ) (res : Traced) :
    (l.foldl (fun r x => r.addRounded fl (g x)) res).2 =
      res.2 ++ l.flatMap (fun x => (g x).2) := by
  induction l generalizing res with
  | nil => simp
  | cons x xs ih =>
    rw [List.foldl_cons, ih]
    simp [Traced.addRounded, List.flatMap_cons, List.append_assoc]

theorem foldl_addRounded_id (g : ℕ → Traced) (l : List ℕ) (res : Traced) :
    l.foldl (fun r x => r.addRounded id (g x)) res = l.foldl (fun r x => r.add (g x)) res :=
  rfl

/-- With the identity as rounding, `integrateRounded` is `integrate`. -/
theorem integrateRounded_id (ce : ℚ → ℚ → Bool) (P : PiecewiseIntegral) (f : ℚ → ℚ)
    (a b : ℚ) : P.integrateRounded id ce f a b = P.integrate ce f a b := by
  unfold PiecewiseIntegral.integrateRounded PiecewiseIntegral.integrate
  by_cases h0 : lower_bound P.criticalPoints_ a = P.criticalPoints_.length
  · simp only [h0, if_true]
    rfl
  · simp only [h0, if_false]
    have hlead : (if !ce a (deref P.criticalPoints_ (lower_bound P.criticalPoints_ a)) then
          Traced.addRounded id (0, [])
            (P.leadingSegmentRounded id ce f a b (lower_bound P.criticalPoints_ a))
        else (0, [])) =
        Traced.add (0, []) (P.leadingSegment ce f a b (lower_bound P.criticalPoints_ a)) := by
      unfold PiecewiseIntegral.leadingSegment PiecewiseIntegral.leadingSegmentRounded
      cases ce a (deref P.criticalPoints_ (lower_bound P.criticalPoints_ a))
      · rfl
      · simp [Traced.add]
    rw [hlead]
    generalize Traced.add (0, [])
      (P.leadingSegment ce f a b (lower_bound P.criticalPoints_ a)) = res
    have htrail : (if lower_bound P.criticalPoints_ b = P.criticalPoints_.length then
          if !ce (deref P.criticalPoints_ (lower_bound P.criticalPoints_ b - 1)) b then
            Traced.addRounded id res
              (P.trailingSegmentRounded id ce f b (lower_bound P.criticalPoints_ b))
          else res
        else res) =
        Traced.add res (P.trailingSegment ce f b (lower_bound P.criticalPoints_ b)) := by
      unfold PiecewiseIntegral.trailingSegment PiecewiseIntegral.trailingSegmentRounded
      by_cases hb : lower_bound P.criticalPoints_ b = P.criticalPoints_.length
      · rw [if_pos hb, if_pos hb]
        cases ce (deref P.criticalPoints_ (lower_bound P.criticalPoints_ b - 1)) b
        · rfl
        · simp [Traced.add]
      · rw [if_neg hb, if_neg hb]
        simp [Traced.add]
    rw [htrail]
    rfl

theorem mem_wholeSegmentRounded (fl : ℚ → ℚ) (ce : ℚ → ℚ → Bool) (P : PiecewiseIntegral)
    (f : ℚ → ℚ) (a b : ℚ) (call : Call)
    (h : call ∈ (P.wholeSegmentRounded fl ce f a b).2) :
    ∃ tmp : ℚ, (tmp = 1 ∨ (tmp = P.eps_ ∧ P.criticalPoints_ ≠ [])) ∧
      call = (fl (a * tmp), b) := by
  unfold PiecewiseIntegral.wholeSegmentRounded at h
  rw [mem_integrate_h] at h
  refine ⟨_, ?_, h.2⟩
  by_cases he : P.criticalPoints_ = []
  · left; simp [he]
  · have hne : (!P.criticalPoints_.isEmpty) = true := by
      cases hcp : P.criticalPoints_ with
      | nil => exact absurd hcp he
      | cons _ _ => rfl
    by_cases hc : ce a (P.criticalPoints_.getLastD 0) = true
    · right
      exact ⟨by rw [if_pos hne, if_pos hc], he⟩
    · left; rw [if_pos hne, if_neg hc]

/-- The log of `integrateRounded`, loop unrolled. -/
theorem integrateRounded_snd (fl : ℚ → ℚ) (ce : ℚ → ℚ → Bool) (P : PiecewiseIntegral)
    (f : ℚ → ℚ) (a b : ℚ) :
    (P.integrateRounded fl ce f a b).2 =
      if lower_bound P.criticalPoints_ a = P.criticalPoints_.length then
        (P.wholeSegmentRounded fl ce f a b).2
      else
        (if ce a (deref P.criticalPoints_ (lower_bound P.criticalPoints_ a)) then []
          else (P.leadingSegmentRounded fl ce f a b (lower_bound P.criticalPoints_ a)).2) ++
        (if lower_bound P.criticalPoints_ b = P.criticalPoints_.length then
          if ce (deref P.criticalPoints_ (lower_bound P.criticalPoints_ b - 1)) b then []
          else (P.trailingSegmentRounded fl ce f b (lower_bound P.criticalPoints_ b)).2
          else []) ++
        (List.range' (lower_bound P.criticalPoints_ a)
          (P.lastIter (lower_bound P.criticalPoints_ b) - lower_bound P.criticalPoints_ a)).flatMap
          (fun x => (P.interiorSegmentRounded fl ce f b x).2) := by
  unfold PiecewiseIntegral.integrateRounded
  by_cases h0 : lower_bound P.criticalPoints_ a = P.criticalPoints_.length
  · simp [h0]
  · simp only [h0, if_false]
    unfold PiecewiseIntegral.interiorLoopRounded
    rw [foldl_addRounded_snd]
    congr 1
    by_cases hb : lower_bound P.criticalPoints_ b = P.criticalPoints_.length
    · cases ce a (deref P.criticalPoints_ (lower_bound P.criticalPoints_ a)) <;>
      cases ce (deref P.criticalPoints_ (lower_bound P.criticalPoints_ b - 1)) b <;>
      simp [hb, Traced.addRounded]
    · cases ce a (deref P.criticalPoints_ (lower_bound P.criticalPoints_ a)) <;>
      simp [hb, Traced.addRounded]

/-- Every delegate call of `integrateRounded` comes from one of its four places. -/
theorem mem_integrateRounded (fl : ℚ → ℚ) (ce : ℚ → ℚ → Bool) (P : PiecewiseIntegral)
    (f : ℚ → ℚ) (a b : ℚ) (call : Call) (h : call ∈ (P.integrateRounded fl ce f a b).2) :
    (lower_bound P.criticalPoints_ a = P.criticalPoints_.length ∧
      call ∈ (P.wholeSegmentRounded fl ce f a b).2) ∨
    (lower_bound P.criticalPoints_ a < P.criticalPoints_.length ∧
      ((ce a (deref P.criticalPoints_ (lower_bound P.criticalPoints_ a)) = false ∧
        call = (a, min (fl (deref P.criticalPoints_ (lower_bound P.criticalPoints_ a) /
          P.eps_)) b)) ∨
       (lower_bound P.criticalPoints_ b = P.criticalPoints_.length ∧
        call = (fl (deref P.criticalPoints_ (lower_bound P.criticalPoints_ b - 1) * P.eps_),
          b)) ∨
       ∃ x, lower_bound P.criticalPoints_ a ≤ x ∧
         x < P.lastIter (lower_bound P.criticalPoints_ b) ∧
         call = (fl (deref P.criticalPoints_ x * P.eps_),
           min (fl (deref P.criticalPoints_ (x + 1) / P.eps_)) b))) := by
  rw [integrateRounded_snd] at h
  have hle := lower_bound_le_length P.criticalPoints_ a
  by_cases h0 : lower_bound P.criticalPoints_ a = P.criticalPoints_.length
  · rw [if_pos h0] at h
    exact Or.inl ⟨h0, h⟩
  · rw [if_neg h0] at h
    right
    refine ⟨lt_of_le_of_ne hle h0, ?_⟩
    rcases List.mem_append.mp h with h | h
    · rcases List.mem_append.mp h with h | h
      · left
        cases hc : ce a (deref P.criticalPoints_ (lower_bound P.criticalPoints_ a))
        · rw [hc] at h
          simp only [Bool.false_eq_true, if_false] at h
          unfold PiecewiseIntegral.leadingSegmentRounded at h
          rw [mem_integrate_h] at h
          exact ⟨rfl, h.2⟩
        · rw [hc] at h
          simp at h
      · right; left
        by_cases hb : lower_bound P.criticalPoints_ b = P.criticalPoints_.length
        · rw [if_pos hb] at h
          cases hc : ce (deref P.criticalPoints_ (lower_bound P.criticalPoints_ b - 1)) b
          · rw [hc] at h
            simp only [Bool.false_eq_true, if_false] at h
            unfold PiecewiseIntegral.trailingSegmentRounded at h
            rw [mem_integrate_h] at h
            exact ⟨hb, h.2⟩
          · rw [hc] at h
            simp at h
        · rw [if_neg hb] at h
          simp at h
    · right; right
      rw [List.mem_flatMap] at h
      obtain ⟨x, hx, hcx⟩ := h
      rw [List.mem_range'_1] at hx
      unfold PiecewiseIntegral.interiorSegmentRounded at hcx
      rw [mem_integrate_h] at hcx
      exact ⟨x, hx.1, by omega, hcx.2⟩

/-- When the bounds are not close enough, `integrate_h` issues the delegate call. -/
theorem integrate_h_of_not_close (ce : ℚ → ℚ → Bool) (P : PiecewiseIntegral) (f : ℚ → ℚ)
    (l u : ℚ) (h : ce l u = false) :
    P.integrate_h ce f l u = (P.integrator_ f l u, [(l, u)]) := by
  unfold PiecewiseIntegral.integrate_h
  rw [h]
  rfl

/-- In an arithmetic whose rounding `fl` is monotone and leaves the critical points
unchanged, with a factor `eps_ > 1`, strictly positive ascending critical points whose
exactly nudged values stay below the later points, and `a <= b`: every critical point is
at or below both bounds of a delegate call, or at or above both. -/
theorem calls_rounded_beside_points (fl : ℚ → ℚ) (ce : ℚ → ℚ → Bool) (P : PiecewiseIntegral)
    (f : ℚ → ℚ) (a b : ℚ) (he : 1 < P.eps_)
    (hs : P.criticalPoints_.Sorted (fun x y => x ≤ y))
    (hp : ∀ c ∈ P.criticalPoints_, 0 < c)
    (hgap : ∀ i j, i < j → j < P.criticalPoints_.length →
      deref P.criticalPoints_ i * P.eps_ < deref P.criticalPoints_ j)
    (hmono : ∀ x y, x ≤ y → fl x ≤ fl y)
    (hfix : ∀ c ∈ P.criticalPoints_, fl c = c) (hab : a ≤ b)
    (call : Call) (hcall : call ∈ (P.integrateRounded fl ce f a b).2)
    (c : ℚ) (hc : c ∈ P.criticalPoints_) :
    (c ≤ call.1 ∧ c ≤ call.2) ∨ (call.1 ≤ c ∧ call.2 ≤ c) := by
  have he0 : 0 < P.eps_ := by linarith
  have hc0 : 0 < c := hp c hc
  -- rounding a value that is not below a critical point gives a value not below it
  have hup : ∀ d ∈ P.criticalPoints_, ∀ v, d ≤ v → d ≤ fl v := by
    intro d hd v hdv
    have := hmono d v hdv
    rwa [hfix d hd] at this
  have hdown : ∀ d ∈ P.criticalPoints_, ∀ v, v ≤ d → fl v ≤ d := by
    intro d hd v hvd
    have := hmono v d hvd
    rwa [hfix d hd] at this
  obtain ⟨i, hi, hci⟩ := exists_deref_of_mem _ c hc
  rcases mem_integrateRounded fl ce P f a b call hcall with
    ⟨h0, h⟩ | ⟨h0, ⟨_, h⟩ | ⟨hb, h⟩ | ⟨x, hx0, hx, h⟩⟩
  · -- the whole interval, all critical points below `a`
    have hca : c < a := lt_of_lower_bound_eq_length _ a h0 c hc
    obtain ⟨tmp, htmp, hcl⟩ := mem_wholeSegmentRounded _ _ _ _ _ _ _ h
    left
    rw [hcl]
    refine ⟨hup c hc _ ?_, le_trans hca.le hab⟩
    rcases htmp with h1 | h1
    · rw [h1, mul_one]; exact hca.le
    · rw [h1.1]
      exact le_trans hca.le (le_mul_of_one_le_right (lt_trans hc0 hca).le he.le)
  · -- the leading segment
    have hD := le_deref_lower_bound _ a h0
    have hDm := deref_mem P.criticalPoints_ _ h0
    have hD0 := hp _ hDm
    rw [h]
    by_cases hia : i < lower_bound P.criticalPoints_ a
    · left
      have hca : c < a := hci ▸ deref_lt_of_lt_lower_bound _ a i hia
      refine ⟨hca.le, le_min (hup c hc _ ?_) (le_trans hca.le hab)⟩
      rw [le_div_iff₀ he0, ← hci]
      exact (hgap i _ hia h0).le
    · right
      have hDc : deref P.criticalPoints_ (lower_bound P.criticalPoints_ a) ≤ c :=
        hci ▸ deref_mono _ hs _ i (not_lt.mp hia) hi
      refine ⟨le_trans hD hDc, le_trans (min_le_left _ _) (le_trans ?_ hDc)⟩
      exact hdown _ hDm _ (div_le_self hD0.le he.le)
  · -- the trailing segment
    rw [h]
    left
    have hLm : deref P.criticalPoints_ (lower_bound P.criticalPoints_ b - 1) ∈
        P.criticalPoints_ := deref_mem _ _ (by omega)
    have hL : c ≤ deref P.criticalPoints_ (lower_bound P.criticalPoints_ b - 1) :=
      hci ▸ deref_mono _ hs i _ (by omega) (by omega)
    refine ⟨hup c hc _ (le_trans hL (le_mul_of_one_le_right (hp _ hLm).le he.le)), ?_⟩
    exact (lt_of_lower_bound_eq_length _ b hb c hc).le
  · -- an interior segment
    have hx1 := succ_lt_length_of_lt_lastIter P b x hx
    have hxb := deref_lt_of_lt_lastIter P b x hx
    have hg := hgap x (x + 1) (Nat.lt_succ_self x) hx1
    have hxm : deref P.criticalPoints_ x ∈ P.criticalPoints_ := deref_mem _ _ (by omega)
    have hym : deref P.criticalPoints_ (x + 1) ∈ P.criticalPoints_ := deref_mem _ _ hx1
    rw [h]
    by_cases hix : i ≤ x
    · left
      have hcx : c ≤ deref P.criticalPoints_ x := hci ▸ deref_mono _ hs i x hix (by omega)
      refine ⟨hup c hc _ (le_trans hcx (le_mul_of_one_le_right (hp _ hxm).le he.le)),
        le_min (hup c hc _ ?_) (le_trans hcx hxb.le)⟩
      rw [le_div_iff₀ he0]
      exact le_trans (mul_le_mul_of_nonneg_right hcx he0.le) hg.le
    · right
      have hxc : deref P.criticalPoints_ (x + 1) ≤ c :=
        hci ▸ deref_mono _ hs (x + 1) i (by omega) hi
      refine ⟨le_trans (hdown _ hym _ hg.le) hxc,
        le_trans (min_le_left _ _) (le_trans ?_ hxc)⟩
      exact hdown _ hym _ (div_le_self (hp _ hym).le he.le)

/-- In an arithmetic whose rounding `fl` is monotone, leaves `a` unchanged and keeps the
nudged value of every critical point off the point, with a factor `eps_ > 1`, strictly
positive ascending critical points whose twice nudged values stay below the later
points, a `close_enough` that holds between a positive value and itself, and `a <= b`:
every critical point lies strictly below both bounds of a delegate call, or strictly
above both. -/
theorem calls_rounded_avoid_points (fl : ℚ → ℚ) (ce : ℚ → ℚ → Bool) (P : PiecewiseIntegral)
    (f : ℚ → ℚ) (a b : ℚ) (he : 1 < P.eps_)
    (hs : P.criticalPoints_.Sorted (fun x y => x ≤ y))
    (hp : ∀ c ∈ P.criticalPoints_, 0 < c)
    (hgap : ∀ i j, i < j → j < P.criticalPoints_.length →
      deref P.criticalPoints_ i * (P.eps_ * P.eps_) < deref P.criticalPoints_ j)
    (hrefl : ∀ x, 0 < x → ce x x = true)
    (hmono : ∀ x y, x ≤ y → fl x ≤ fl y)
    (hnudge : ∀ c ∈ P.criticalPoints_, fl (c / P.eps_) < c ∧ c < fl (c * P.eps_))
    (hfa : fl a = a) (hab : a ≤ b)
    (call : Call) (hcall : call ∈ (P.integrateRounded fl ce f a b).2)
    (c : ℚ) (hc : c ∈ P.criticalPoints_) :
    (c < call.1 ∧ c < call.2) ∨ (call.1 < c ∧ call.2 < c) := by
  have he0 : 0 < P.eps_ := by linarith
  have hc0 : 0 < c := hp c hc
  -- the nudged values of two stored points, the lower one first, stay in order
  have hord : ∀ i j, i < j → j < P.criticalPoints_.length →
      fl (deref P.criticalPoints_ i * P.eps_) ≤ fl (deref P.criticalPoints_ j / P.eps_) := by
    intro i j hij hj
    apply hmono
    rw [le_div_iff₀ he0, mul_assoc]
    exact (hgap i j hij hj).le
  obtain ⟨i, hi, hci⟩ := exists_deref_of_mem _ c hc
  rcases mem_integrateRounded fl ce P f a b call hcall with
    ⟨h0, h⟩ | ⟨h0, ⟨hna, h⟩ | ⟨hb, h⟩ | ⟨x, hx0, hx, h⟩⟩
  · -- the whole interval, all critical points below `a`
    have hca : c < a := lt_of_lower_bound_eq_length _ a h0 c hc
    obtain ⟨tmp, htmp, hcl⟩ := mem_wholeSegmentRounded _ _ _ _ _ _ _ h
    left
    rw [hcl]
    refine ⟨lt_of_lt_of_le hca ?_, lt_of_lt_of_le hca hab⟩
    have hle : a ≤ a * tmp := by
      rcases htmp with h1 | h1
      · rw [h1, mul_one]
      · rw [h1.1]
        exact le_mul_of_one_le_right (lt_trans hc0 hca).le he.le
    have := hmono a (a * tmp) hle
    rwa [hfa] at this
  · -- the leading segment
    have hD := le_deref_lower_bound _ a h0
    have hDm := deref_mem P.criticalPoints_ _ h0
    have hD0 := hp _ hDm
    have haD : a < deref P.criticalPoints_ (lower_bound P.criticalPoints_ a) := by
      rcases lt_or_eq_of_le hD with hlt | heq
      · exact hlt
      · exfalso
        rw [← heq, hrefl a (heq ▸ hD0)] at hna
        exact Bool.noConfusion hna
    rw [h]
    by_cases hia : i < lower_bound P.criticalPoints_ a
    · left
      have hca : c < a := hci ▸ deref_lt_of_lt_lower_bound _ a i hia
      refine ⟨hca, lt_min ?_ (lt_of_lt_of_le hca hab)⟩
      have h1 := (hnudge c hc).2
      have h2 := hord i _ hia h0
      rw [hci] at h2
      exact lt_of_lt_of_le h1 h2
    · right
      have hDc : deref P.criticalPoints_ (lower_bound P.criticalPoints_ a) ≤ c :=
        hci ▸ deref_mono _ hs _ i (not_lt.mp hia) hi
      refine ⟨lt_of_lt_of_le haD hDc, lt_of_le_of_lt (min_le_left _ _) ?_⟩
      exact lt_of_lt_of_le (hnudge _ hDm).1 hDc
  · -- the trailing segment
    rw [h]
    left
    have hLm : deref P.criticalPoints_ (lower_bound P.criticalPoints_ b - 1) ∈
        P.criticalPoints_ := deref_mem _ _ (by omega)
    have hL : c ≤ deref P.criticalPoints_ (lower_bound P.criticalPoints_ b - 1) :=
      hci ▸ deref_mono _ hs i _ (by omega) (by omega)
    exact ⟨lt_of_le_of_lt hL (hnudge _ hLm).2, lt_of_lower_bound_eq_length _ b hb c hc⟩
  · -- an interior segment
    have hx1 := succ_lt_length_of_lt_lastIter P b x hx
    have hxb := deref_lt_of_lt_lastIter P b x hx
    have hxm : deref P.criticalPoints_ x ∈ P.criticalPoints_ := deref_mem _ _ (by omega)
    have hym : deref P.criticalPoints_ (x + 1) ∈ P.criticalPoints_ := deref_mem _ _ hx1
    have ho := hord x (x + 1) (Nat.lt_succ_self x) hx1
    rw [h]
    by_cases hix : i ≤ x
    · left
      have hcx : c ≤ deref P.criticalPoints_ x := hci ▸ deref_mono _ hs i x hix (by omega)
      have hlow := lt_of_le_of_lt hcx (hnudge _ hxm).2
      exact ⟨hlow, lt_min (lt_of_lt_of_le hlow ho) (lt_of_le_of_lt hcx hxb)⟩
    · right
      have hxc : deref P.criticalPoints_ (x + 1) ≤ c :=
        hci ▸ deref_mono _ hs (x + 1) i (by omega) hi
      have hup := lt_of_lt_of_le (hnudge _ hym).1 hxc
      exact ⟨lt_of_le_of_lt ho hup, lt_of_le_of_lt (min_le_left _ _) hup⟩

/-! ## The pieces of the interval -/

theorem pairwise_of_length_le_one {R : Call → Call → Prop} (l : List Call)
    (h : l.length ≤ 1) : l.Pairwise R := by
  cases l with
  | nil => exact List.Pairwise.nil
  | cons x xs =>
    cases xs with
    | nil => exact List.pairwise_singleton R x
    | cons y ys => simp at h

theorem leadingSegment_length_le (ce : ℚ → ℚ → Bool) (P : PiecewiseIntegral) (f : ℚ → ℚ)
    (a b : ℚ) (a0 : ℕ) : (P.leadingSegment ce f a b a0).2.length ≤ 1 := by
  unfold PiecewiseIntegral.leadingSegment
  split
  · exact integrate_h_length_le _ _ _ _ _
  · simp

theorem trailingSegment_length_le (ce : ℚ → ℚ → Bool) (P : PiecewiseIntegral) (f : ℚ → ℚ)
    (b : ℚ) (b0 : ℕ) : (P.trailingSegment ce f b b0).2.length ≤ 1 := by
  unfold PiecewiseIntegral.trailingSegment
  by_cases hb : b0 = P.criticalPoints_.length
  · rw [if_pos hb]
    split
    · exact integrate_h_length_le _ _ _ _ _
    · simp
  · rw [if_neg hb]
    simp

/-- With a factor `eps_ >= 1` and strictly positive ascending critical points, the
delegate calls of `integrate`, in the order issued, are pairwise non-overlapping. -/
theorem calls_pairwise_disjoint (ce : ℚ → ℚ → Bool) (P : PiecewiseIntegral) (f : ℚ → ℚ)
    (a b : ℚ) (he : 1 ≤ P.eps_) (hs : P.criticalPoints_.Sorted (fun x y => x ≤ y))
    (hp : ∀ c ∈ P.criticalPoints_, 0 < c) :
    (P.integrate ce f a b).2.Pairwise (fun c c' => c.2 ≤ c'.1 ∨ c'.2 ≤ c.1) := by
  rw [integrate_snd]
  by_cases h0 : lower_bound P.criticalPoints_ a = P.criticalPoints_.length
  · rw [if_pos h0]
    exact pairwise_of_length_le_one _ (integrate_h_length_le _ _ _ _ _)
  · rw [if_neg h0]
    have ha0 : lower_bound P.criticalPoints_ a < P.criticalPoints_.length :=
      lt_of_le_of_ne (lower_bound_le_length _ a) h0
    have hD0 : 0 < deref P.criticalPoints_ (lower_bound P.criticalPoints_ a) :=
      hp _ (deref_mem _ _ ha0)
    -- where the calls of each place lie
    have hL : ∀ c ∈ (P.leadingSegment ce f a b (lower_bound P.criticalPoints_ a)).2,
        c.2 ≤ deref P.criticalPoints_ (lower_bound P.criticalPoints_ a) := by
      intro c hc
      rw [mem_leadingSegment] at hc
      rw [hc.2.2]
      exact le_trans (min_le_left _ _) (div_le_self hD0.le he)
    have hT : ∀ c ∈ (P.trailingSegment ce f b (lower_bound P.criticalPoints_ b)).2,
        lower_bound P.criticalPoints_ b = P.criticalPoints_.length ∧
        deref P.criticalPoints_ (P.criticalPoints_.length - 1) ≤ c.1 := by
      intro c hc
      rw [mem_trailingSegment] at hc
      refine ⟨hc.1, ?_⟩
      rw [hc.2.2.2, hc.1]
      exact le_mul_of_one_le_right (hp _ (deref_mem _ _ (by omega))).le he
    have hI : ∀ x, x < P.lastIter (lower_bound P.criticalPoints_ b) →
        ∀ c ∈ (P.interiorSegment ce f b x).2,
        deref P.criticalPoints_ x ≤ c.1 ∧ c.2 ≤ deref P.criticalPoints_ (x + 1) := by
      intro x hx c hc
      have hx1 := succ_lt_length_of_lt_lastIter P b x hx
      rw [mem_interiorSegment] at hc
      rw [hc.2]
      exact ⟨le_mul_of_one_le_right (hp _ (deref_mem _ _ (by omega))).le he,
        le_trans (min_le_left _ _) (div_le_self (hp _ (deref_mem _ _ hx1)).le he)⟩
    have hlastI : ∀ x, x < P.lastIter (lower_bound P.criticalPoints_ b) →
        lower_bound P.criticalPoints_ b = P.criticalPoints_.length →
        x + 1 ≤ P.criticalPoints_.length - 1 := by
      intro x hx hb
      unfold PiecewiseIntegral.lastIter at hx
      rw [if_pos hb] at hx
      omega
    rw [List.pairwise_append, List.pairwise_append]
    refine ⟨⟨pairwise_of_length_le_one _ (leadingSegment_length_le _ _ _ _ _ _),
      pairwise_of_length_le_one _ (trailingSegment_length_le _ _ _ _ _), ?_⟩, ?_, ?_⟩
    · -- leading before trailing
      intro c hc c' hc'
      left
      have h1 := hL c hc
      have h2 := (hT c' hc').2
      have h3 := deref_mono _ hs (lower_bound P.criticalPoints_ a)
        (P.criticalPoints_.length - 1) (by omega) (by omega)
      linarith
    · -- the interior segments among themselves
      rw [List.pairwise_flatMap]
      refine ⟨fun x _ => pairwise_of_length_le_one _ (integrate_h_length_le _ _ _ _ _), ?_⟩
      refine List.Pairwise.imp_of_mem ?_ (List.pairwise_lt_range' _ _)
      intro x x' hx hx' hlt c hc c' hc'
      rw [List.mem_range'_1] at hx hx'
      left
      have h1 := (hI x (by omega) c hc).2
      have h2 := (hI x' (by omega) c' hc').1
      have h3 := deref_mono _ hs (x + 1) x' hlt
        (by have := succ_lt_length_of_lt_lastIter P b x' (by omega); omega)
      linarith
    · -- leading and trailing against the interior segments
      intro c hc c' hc'
      rw [List.mem_flatMap] at hc'
      obtain ⟨x, hx, hcx⟩ := hc'
      rw [List.mem_range'_1] at hx
      have hxl : x < P.lastIter (lower_bound P.criticalPoints_ b) := by omega
      have hx1 := succ_lt_length_of_lt_lastIter P b x hxl
      have h2 := hI x hxl c' hcx
      rcases List.mem_append.mp hc with hc | hc
      · left
        have h1 := hL c hc
        have h3 := deref_mono _ hs (lower_bound P.criticalPoints_ a) x hx.1 (by omega)
        linarith
      · right
        have h1 := hT c hc
        have h3 := deref_mono _ hs (x + 1) (P.criticalPoints_.length - 1)
          (hlastI x hxl h1.1) (by omega)
        linarith [h1.2]

/-- With a factor `eps_ >= 1`, strictly positive ascending critical points no two adjacent
of which are close, a reflexive symmetric `ce` that holds from every positive value up
to that value nudged twice, and `a <= b`: every delegate call of `integrate` is over a
non-degenerate interval inside `[a, b]`. -/
theorem calls_within_bounds (ce : ℚ → ℚ → Bool) (P : PiecewiseIntegral) (f : ℚ → ℚ)
    (a b : ℚ) (he : 1 ≤ P.eps_) (hs : P.criticalPoints_.Sorted (fun x y => x ≤ y))
    (hp : ∀ c ∈ P.criticalPoints_, 0 < c)
    (hch : List.Chain' (fun x y => ce x y = false) P.criticalPoints_)
    (hrefl : ∀ x, ce x x = true) (hsymm : ∀ x y, ce x y = ce y x)
    (hnear : ∀ u v, 0 < u → u ≤ v → v ≤ u * P.eps_ * P.eps_ → ce u v = true)
    (hab : a ≤ b) (call : Call) (hcall : call ∈ (P.integrate ce f a b).2) :
    a ≤ call.1 ∧ call.1 < call.2 ∧ call.2 ≤ b := by
  have he0 : 0 < P.eps_ := by linarith
  -- a value at most one nudge above a smaller positive one is close to it
  have hback : ∀ u v, 0 < u → u ≤ v → v ≤ u * P.eps_ → ce v u = true := by
    intro u v hu huv hv
    rw [hsymm]
    apply hnear u v hu huv
    have : u * P.eps_ ≤ u * P.eps_ * P.eps_ :=
      le_mul_of_one_le_right (mul_pos hu he0).le he
    linarith
  rw [mem_integrate] at hcall
  rcases hcall with ⟨h0, h⟩ | ⟨h0, h | h | ⟨x, hx0, hx, h⟩⟩
  · -- the whole interval
    obtain ⟨tmp, htmp, hce, hc⟩ := mem_wholeSegment _ _ _ _ _ _ h
    rw [hc]
    show a ≤ a * tmp ∧ a * tmp < b ∧ b ≤ b
    rcases htmp with h1 | h1
    · rw [h1, mul_one] at hce ⊢
      refine ⟨le_refl a, lt_of_le_of_ne hab ?_, le_refl b⟩
      intro heq
      rw [heq, hrefl] at hce
      exact Bool.noConfusion hce
    · rw [h1.1] at hce ⊢
      have hlast : deref P.criticalPoints_ (P.criticalPoints_.length - 1) ∈
          P.criticalPoints_ := by
        apply deref_mem
        have := List.length_pos.mpr h1.2.1
        omega
      have ha : 0 < a :=
        lt_trans (hp _ hlast) (lt_of_lower_bound_eq_length _ a h0 _ hlast)
      refine ⟨le_mul_of_one_le_right ha.le he, ?_, le_refl b⟩
      by_contra hcon
      have hb : b ≤ a * P.eps_ := not_lt.mp hcon
      have hclose := hback b (a * P.eps_) (lt_of_lt_of_le ha hab) hb
        (mul_le_mul_of_nonneg_right hab he0.le)
      rw [hclose] at hce
      exact Bool.noConfusion hce
  · -- the leading segment
    rw [mem_leadingSegment] at h
    have hD := le_deref_lower_bound _ a h0
    have hD0 : 0 < deref P.criticalPoints_ (lower_bound P.criticalPoints_ a) :=
      hp _ (deref_mem _ _ h0)
    rw [h.2.2]
    refine ⟨le_refl a, ?_, min_le_right _ _⟩
    show a < min (deref P.criticalPoints_ (lower_bound P.criticalPoints_ a) / P.eps_) b
    rcases min_choice (deref P.criticalPoints_ (lower_bound P.criticalPoints_ a) / P.eps_) b
      with hm | hm
    · rw [hm, lt_div_iff₀ he0]
      by_cases ha : 0 < a
      · by_contra hcon
        have hclose := hnear a _ ha hD
          (le_trans (not_lt.mp hcon) (le_mul_of_one_le_right (mul_pos ha he0).le he))
        rw [hclose] at h
        exact Bool.noConfusion h.1
      · have : a * P.eps_ ≤ 0 := mul_nonpos_of_nonpos_of_nonneg (not_lt.mp ha) he0.le
        linarith
    · rw [hm]
      refine lt_of_le_of_ne hab ?_
      intro heq
      have h2 := h.2.1
      rw [hm, ← heq, hrefl] at h2
      exact Bool.noConfusion h2
  · -- the trailing segment
    rw [mem_trailingSegment] at h
    have hLm : deref P.criticalPoints_ (lower_bound P.criticalPoints_ b - 1) ∈
        P.criticalPoints_ := deref_mem _ _ (by omega)
    have hL0 := hp _ hLm
    have hLb := lt_of_lower_bound_eq_length _ b h.1 _ hLm
    have haL : a ≤ deref P.criticalPoints_ (lower_bound P.criticalPoints_ b - 1) :=
      le_deref_of_lower_bound_le _ hs a _ (by omega) (by omega)
    rw [h.2.2.2]
    refine ⟨le_trans haL (le_mul_of_one_le_right hL0.le he), ?_, le_refl b⟩
    by_contra hcon
    have hclose := hnear _ b hL0 hLb.le
      (le_trans (not_lt.mp hcon) (le_mul_of_one_le_right (mul_pos hL0 he0).le he))
    rw [hclose] at h
    exact Bool.noConfusion h.2.1
  · -- an interior segment
    have hx1 := succ_lt_length_of_lt_lastIter P b x hx
    have hxb := deref_lt_of_lt_lastIter P b x hx
    have hxm : deref P.criticalPoints_ x ∈ P.criticalPoints_ := deref_mem _ _ (by omega)
    have hx0' := hp _ hxm
    have hax : a ≤ deref P.criticalPoints_ x :=
      le_deref_of_lower_bound_le _ hs a x hx0 (by omega)
    rw [mem_interiorSegment] at h
    rw [h.2]
    refine ⟨le_trans hax (le_mul_of_one_le_right hx0'.le he), ?_, min_le_right _ _⟩
    show deref P.criticalPoints_ x * P.eps_ < min (deref P.criticalPoints_ (x + 1) / P.eps_) b
    rcases min_choice (deref P.criticalPoints_ (x + 1) / P.eps_) b with hm | hm
    · rw [hm, lt_div_iff₀ he0]
      by_contra hcon
      have hclose := hnear _ _ hx0' (deref_mono _ hs x (x + 1) (Nat.le_succ x) hx1)
        (not_lt.mp hcon)
      rw [chain'_deref _ hch x hx1] at hclose
      exact Bool.noConfusion hclose
    · rw [hm]
      by_contra hcon
      have hclose := hback b _ (lt_trans hx0' hxb) (not_lt.mp hcon)
        (mul_le_mul_of_nonneg_right hxb.le he0.le)
      have h1 := h.1
      rw [hm, hclose] at h1
      exact Bool.noConfusion h1

/-! ## Additive delegates -/

/-- The scan of `std::unique` splits its input into the elements it drops first, all
close to `kept`, followed by runs: a kept element and then the elements dropped after
it, all close to that kept element. -/
theorem uniqueFrom_runs (pred : ℚ → ℚ → Bool) (v : List ℚ) (kept : ℚ) :
    ∃ (dropped : List ℚ) (runs : List (ℚ × List ℚ)),
      v = dropped ++ runs.flatMap (fun r => r.1 :: r.2) ∧
      (∀ y ∈ dropped, pred kept y = true) ∧
      uniqueFrom pred kept v = runs.map Prod.fst ∧
      (∀ r ∈ runs, ∀ y ∈ r.2, pred r.1 y = true) := by
  induction v generalizing kept with
  | nil => exact ⟨[], [], rfl, fun y hy => absurd hy (List.not_mem_nil y), rfl,
      fun r hr => absurd hr (List.not_mem_nil r)⟩
  | cons x xs ih =>
    cases hk : pred kept x
    · obtain ⟨d, runs, hv, hd, hu, hr⟩ := ih x
      refine ⟨[], (x, d) :: runs, ?_, fun y hy => absurd hy (List.not_mem_nil y), ?_, ?_⟩
      · rw [List.flatMap_cons, List.nil_append, List.cons_append, ← hv]
      · simp [uniqueFrom, hk, hu]
      · intro r hrm
        rcases List.mem_cons.mp hrm with h | h
        · rw [h]; exact hd
        · exact hr r h
    · obtain ⟨d, runs, hv, hd, hu, hr⟩ := ih kept
      refine ⟨x :: d, runs, ?_, ?_, ?_, hr⟩
      · rw [List.cons_append, ← hv]
      · intro y hy
        rcases List.mem_cons.mp hy with h | h
        · rw [h]; exact hk
        · exact hd y h
      · simp [uniqueFrom, hk, hu]

/-! ## Exact duplicates in the input -/

/-- Dropping exact repetitions first does not change what the scan of `std::unique`
keeps, when the element kept last is close to the last element seen. -/
theorem uniqueFrom_uniqueFrom_eq (pred : ℚ → ℚ → Bool) (hrefl : ∀ x, pred x x = true)
    (v : List ℚ) (kept seen : ℚ) (h : pred kept seen = true) :
    uniqueFrom pred kept (uniqueFrom (fun x y => decide (x = y)) seen v) =
      uniqueFrom pred kept v := by
  induction v generalizing kept seen with
  | nil => rfl
  | cons x xs ih =>
    by_cases hx : seen = x
    · subst hx
      have h1 : uniqueFrom (fun x y => decide (x = y)) seen (seen :: xs) =
          uniqueFrom (fun x y => decide (x = y)) seen xs := by
        simp [uniqueFrom]
      have h2 : uniqueFrom pred kept (seen :: xs) = uniqueFrom pred kept xs := by
        simp [uniqueFrom, h]
      rw [h1, h2]
      exact ih kept seen h
    · have h1 : uniqueFrom (fun x y => decide (x = y)) seen (x :: xs) =
          x :: uniqueFrom (fun x y => decide (x = y)) x xs := by
        simp [uniqueFrom, hx]
      rw [h1]
      cases hk : pred kept x
      · have h2 : ∀ w, uniqueFrom pred kept (x :: w) = x :: uniqueFrom pred x w := by
          intro w; simp [uniqueFrom, hk]
        rw [h2, h2, ih x x (hrefl x)]
      · have h2 : ∀ w, uniqueFrom pred kept (x :: w) = uniqueFrom pred kept w := by
          intro w; simp [uniqueFrom, hk]
        rw [h2, h2, ih kept x hk]

theorem unique_unique_eq (pred : ℚ → ℚ → Bool) (hrefl : ∀ x, pred x x = true) (v : List ℚ) :
    unique pred (unique (fun x y => decide (x = y)) v) = unique pred v := by
  cases v with
  | nil => rfl
  | cons x xs =>
    show x :: uniqueFrom pred x (uniqueFrom (fun x y => decide (x = y)) x xs) =
      x :: uniqueFrom pred x xs
    rw [uniqueFrom_uniqueFrom_eq pred hrefl xs x x (hrefl x)]

theorem mem_uniqueFrom_eq (v : List ℚ) (seen x : ℚ) (h : x ∈ v) :
    x = seen ∨ x ∈ uniqueFrom (fun x y => decide (x = y)) seen v := by
  induction v generalizing seen with
  | nil => exact absurd h (List.not_mem_nil x)
  | cons y ys ih =>
    by_cases hy : seen = y
    · subst hy
      have h1 : uniqueFrom (fun x y => decide (x = y)) seen (seen :: ys) =
          uniqueFrom (fun x y => decide (x = y)) seen ys := by
        simp [uniqueFrom]
      rw [h1]
      rcases List.mem_cons.mp h with h | h
      · exact Or.inl h
      · exact ih seen h
    · have h1 : uniqueFrom (fun x y => decide (x = y)) seen (y :: ys) =
          y :: uniqueFrom (fun x y => decide (x = y)) y ys := by
        simp [uniqueFrom, hy]
      rw [h1]
      right
      rcases List.mem_cons.mp h with h | h
      · exact h ▸ List.mem_cons_self _ _
      · rcases ih y h with h' | h'
        · exact h' ▸ List.mem_cons_self _ _
        · exact List.mem_cons_of_mem _ h'

theorem mem_unique_eq_sort (v : List ℚ) (x : ℚ) :
    x ∈ unique (fun x y => decide (x = y)) (sort v) ↔ x ∈ v := by
  constructor
  · exact mem_unique_sort _ v x
  · intro h
    have hs : x ∈ sort v := (List.perm_insertionSort (fun x y : ℚ => x ≤ y) v).mem_iff.mpr h
    cases hv : sort v with
    | nil => rw [hv] at hs; exact absurd hs (List.not_mem_nil x)
    | cons y ys =>
      rw [hv] at hs
      show x ∈ y :: uniqueFrom (fun x y => decide (x = y)) y ys
      rcases List.mem_cons.mp hs with h' | h'
      · exact h' ▸ List.mem_cons_self _ _
      · rcases mem_uniqueFrom_eq ys y x h' with h'' | h''
        · exact h'' ▸ List.mem_cons_self _ _
        · exact List.mem_cons_of_mem _ h''

/-- The ascending sequence without exact repetitions depends only on the set of values. -/
theorem unique_eq_sort_congr (v w : List ℚ) (h : ∀ x, x ∈ v ↔ x ∈ w) :
    unique (fun x y => decide (x = y)) (sort v) =
      unique (fun x y => decide (x = y)) (sort w) := by
  have hv := unique_sort_strict (fun x y => decide (x = y)) (fun x => by simp) v
  have hw := unique_sort_strict (fun x y => decide (x = y)) (fun x => by simp) w
  refine List.eq_of_perm_of_sorted ?_ hv hw
  rw [List.perm_ext_iff_of_nodup hv.nodup hw.nodup]
  intro x
  rw [mem_unique_eq_sort, mem_unique_eq_sort]
  exact h x

/-! ## Properties of the model of `close_enough` -/

theorem QL_EPSILON_pos : 0 < QL_EPSILON := by
  unfold QL_EPSILON
  positivity

theorem closeEnough_iff (x y : ℚ) :
    closeEnough x y = true ↔ |x - y| ≤ 42 / 2 ^ 52 * max |x| |y| := by
  unfold closeEnough closeEnoughWithin QL_EPSILON
  rw [decide_eq_true_iff]
  norm_num

theorem closeEnough_refl (x : ℚ) : closeEnough x x = true := by
  rw [closeEnough_iff, sub_self, abs_zero]
  positivity

theorem closeEnough_symm (x y : ℚ) : closeEnough x y = closeEnough y x := by
  rw [Bool.eq_iff_iff, closeEnough_iff, closeEnough_iff, abs_sub_comm, max_comm]

/-- The model is convex: a point between two close points is close to the upper one. -/
theorem closeEnough_between (x y z : ℚ) (hxy : x ≤ y) (hyz : y ≤ z)
    (h : closeEnough x z = true) : closeEnough y z = true := by
  rw [closeEnough_iff] at h ⊢
  rw [abs_of_nonpos (by linarith : x - z ≤ 0)] at h
  rw [abs_of_nonpos (by linarith : y - z ≤ 0)]
  have hmax : |z| ≤ max |y| |z| := le_max_right _ _
  by_cases hcase : |x| ≤ |z|
  · rw [max_eq_right hcase] at h
    linarith
  · rw [max_eq_left (le_of_not_le hcase)] at h
    have hx : x < 0 := by
      by_contra hx
      push_neg at hx
      apply hcase
      rw [abs_of_nonneg hx, abs_of_nonneg (by linarith)]
      linarith
    rw [abs_of_neg hx] at h
    have hy : y < 0 := by linarith
    have hmax' : -y ≤ max |y| |z| := le_trans (neg_le_abs y) (le_max_left _ _)
    linarith

/-- The model does not separate a positive point from its nudged value. -/
theorem closeEnough_nudge (x y : ℚ) (hx : 0 < x) (hxy : x ≤ y) (hy : y ≤ x * (1 + QL_EPSILON)) :
    closeEnough x y = true := by
  rw [closeEnough_iff]
  unfold QL_EPSILON at hy
  rw [abs_of_nonpos (by linarith), abs_of_pos hx, abs_of_pos (by linarith), max_eq_right hxy]
  linarith

/-- The model does not separate a positive value from that value nudged twice. -/
theorem closeEnough_nudge_twice (x y : ℚ) (hx : 0 < x) (hxy : x ≤ y)
    (hy : y ≤ x * (1 + QL_EPSILON) * (1 + QL_EPSILON)) : closeEnough x y = true := by
  rw [closeEnough_iff]
  unfold QL_EPSILON at hy
  rw [abs_of_nonpos (by linarith), abs_of_pos hx, abs_of_pos (by linarith), max_eq_right hxy]
  linarith

/-- The model of `close_enough` does not hold between two values of `[0, 10]` that lie
at least 1 apart. -/
theorem closeEnough_far (l u : ℚ) (hl : 0 ≤ l) (hu : u ≤ 10) (hlu : l + 1 ≤ u) :
    closeEnough l u = false := by
  rw [← Bool.not_eq_true, closeEnough_iff]
  intro h
  have h1 : |l - u| = u - l := by
    rw [abs_sub_comm]
    exact abs_of_nonneg (by linarith)
  have h2 : max |l| |u| = u := by
    rw [abs_of_nonneg hl, abs_of_nonneg (by linarith : (0 : ℚ) ≤ u)]
    exact max_eq_right (by linarith)
  rw [h1, h2] at h
  have h3 : (42 : ℚ) / 2 ^ 52 * u ≤ 42 / 2 ^ 52 * 10 :=
    mul_le_mul_of_nonneg_left hu (by norm_num)
  have h4 : (42 : ℚ) / 2 ^ 52 * 10 < 1 := by norm_num
  linarith

/-! ## The constructor -/

/-- C1: for every input list, the critical points stored by the constructor are in
strictly ascending order and no two adjacent stored points satisfy `close_enough`
(taken as reflexive); when `close_enough` is symmetric this holds in both argument
orders. -/
theorem create_criticalPoints_strictly_ascending (close_enough : ℚ → ℚ → Bool)
    (hrefl : ∀ x, close_enough x x = true) (ε : ℚ) (integrator : Integrator)
    (criticalPoints : List ℚ) (avoidCriticalPoints : Bool) :
    List.Sorted (fun x y => x < y)
      (PiecewiseIntegral.create close_enough ε integrator criticalPoints
        avoidCriticalPoints).criticalPoints_ ∧
    List.Chain' (fun x y => close_enough x y = false)
      (PiecewiseIntegral.create close_enough ε integrator criticalPoints
        avoidCriticalPoints).criticalPoints_ ∧
    ((∀ x y, close_enough x y = close_enough y x) →
      List.Chain' (fun x y => close_enough y x = false)
        (PiecewiseIntegral.create close_enough ε integrator criticalPoints
          avoidCriticalPoints).criticalPoints_) := by
  refine ⟨unique_sort_strict close_enough hrefl criticalPoints,
    unique_chain' close_enough (sort criticalPoints), fun hsymm => ?_⟩
  refine List.Chain'.imp ?_ (unique_chain' close_enough (sort criticalPoints))
  intro x y hxy
  rw [← hsymm x y]
  exact hxy

/-- Instance of C1: the model of `close_enough` and the input `[5, 2, 2, 5, 1]`. -/
theorem create_criticalPoints_strictly_ascending_witness :
    (∀ x, closeEnough x x = true) ∧
    (List.Sorted (fun x y => x < y)
      (PiecewiseIntegral.create closeEnough QL_EPSILON widthIntegrator [5, 2, 2, 5, 1]
        true).criticalPoints_ ∧
    List.Chain' (fun x y => closeEnough x y = false)
      (PiecewiseIntegral.create closeEnough QL_EPSILON widthIntegrator [5, 2, 2, 5, 1]
        true).criticalPoints_ ∧
    ((∀ x y, closeEnough x y = closeEnough y x) →
      List.Chain' (fun x y => closeEnough y x = false)
        (PiecewiseIntegral.create closeEnough QL_EPSILON widthIntegrator [5, 2, 2, 5, 1]
          true).criticalPoints_)) :=
  ⟨closeEnough_refl,
    create_criticalPoints_strictly_ascending closeEnough closeEnough_refl QL_EPSILON
      widthIntegrator [5, 2, 2, 5, 1] true⟩

/-- C2: normalisation is idempotent: constructing again from the critical points
stored by a constructed object stores the same critical points. -/
theorem create_criticalPoints_idempotent (close_enough : ℚ → ℚ → Bool) (ε ε' : ℚ)
    (integrator integrator' : Integrator) (criticalPoints : List ℚ)
    (avoidCriticalPoints avoidCriticalPoints' : Bool) :
    (PiecewiseIntegral.create close_enough ε' integrator'
      (PiecewiseIntegral.create close_enough ε integrator criticalPoints
        avoidCriticalPoints).criticalPoints_ avoidCriticalPoints').criticalPoints_ =
    (PiecewiseIntegral.create close_enough ε integrator criticalPoints
      avoidCriticalPoints).criticalPoints_ := by
  show unique close_enough (sort (unique close_enough (sort criticalPoints))) =
    unique close_enough (sort criticalPoints)
  rw [sort_of_sorted _ (unique_sort_sorted close_enough criticalPoints),
    unique_of_chain' _ _ (unique_chain' close_enough (sort criticalPoints))]

/-! ## `integrate` without critical points, and with one -/

/-- C3, the claim fails: without critical points and with `a = b = 1`, or with
`a = 1` and `b = 1 + QL_EPSILON`, no delegate call is issued and 0 is returned. -/
theorem close_bounds_without_criticalPoints_no_call :
    (PiecewiseIntegral.create closeEnough QL_EPSILON widthIntegrator [] true).integrate
      closeEnough id 1 1 = (0, []) ∧
    (PiecewiseIntegral.create closeEnough QL_EPSILON widthIntegrator [] true).integrate
      closeEnough id 1 (1 + QL_EPSILON) = (0, []) ∧
    (PiecewiseIntegral.create closeEnough QL_EPSILON widthIntegrator [] true).integrate
      closeEnough id 1 (1 + QL_EPSILON) ≠
        (widthIntegrator id 1 (1 + QL_EPSILON), [(1, 1 + QL_EPSILON)]) := by
  decide!

/-- C3, amended: with an empty critical-point list and either avoidance setting,
`integrate(f, a, b)` issues exactly one delegate call, over `[a, b]`, and returns its
value when `a` and `b` are not tolerance-close; when they are, it issues no call and
returns 0. -/
theorem integrate_no_criticalPoints (close_enough : ℚ → ℚ → Bool) (ε : ℚ)
    (integrator : Integrator) (avoidCriticalPoints : Bool) (f : ℚ → ℚ) (a b : ℚ) :
    (PiecewiseIntegral.create close_enough ε integrator [] avoidCriticalPoints).integrate
      close_enough f a b =
    if close_enough a b then (0, []) else (integrator f a b, [(a, b)]) := by
  cases h : close_enough a b <;>
  simp [PiecewiseIntegral.integrate, PiecewiseIntegral.create, sort, unique, lower_bound,
    PiecewiseIntegral.wholeSegment, PiecewiseIntegral.integrate_h, h]

/-- C8: with avoidance disabled (`eps_ = 1`), for every critical-point list and every
`a` and `b`, each endpoint of each delegate call of `integrate(f, a, b)` is exactly `a`,
exactly `b`, or exactly a stored critical point. -/
theorem integrate_endpoints_without_avoidance (close_enough : ℚ → ℚ → Bool) (ε : ℚ)
    (integrator : Integrator) (criticalPoints : List ℚ) (f : ℚ → ℚ) (a b : ℚ) :
    ∀ call ∈ ((PiecewiseIntegral.create close_enough ε integrator criticalPoints
        false).integrate close_enough f a b).2,
      (call.1 = a ∨ call.1 = b ∨ call.1 ∈ (PiecewiseIntegral.create close_enough ε
        integrator criticalPoints false).criticalPoints_) ∧
      (call.2 = a ∨ call.2 = b ∨ call.2 ∈ (PiecewiseIntegral.create close_enough ε
        integrator criticalPoints false).criticalPoints_) := by
  intro call hcall
  generalize hP : PiecewiseIntegral.create close_enough ε integrator criticalPoints false = P
    at hcall ⊢
  have heps : P.eps_ = 1 := by rw [← hP]; rfl
  rw [mem_integrate] at hcall
  rcases hcall with ⟨_, h⟩ | ⟨h0, h | h | ⟨x, hx0, hx, h⟩⟩
  · obtain ⟨tmp, htmp, _, hc⟩ := mem_wholeSegment _ _ _ _ _ _ h
    have ht : tmp = 1 := by
      rcases htmp with h1 | h1
      · exact h1
      · rw [h1.1, heps]
    rw [hc, ht, mul_one]
    exact ⟨Or.inl rfl, Or.inr (Or.inl rfl)⟩
  · rw [mem_leadingSegment, heps, div_one] at h
    rw [h.2.2]
    refine ⟨Or.inl rfl, ?_⟩
    rcases min_choice (deref P.criticalPoints_ (lower_bound P.criticalPoints_ a)) b with hm | hm
    · right; right
      show min _ _ ∈ _
      rw [hm]
      exact deref_mem _ _ h0
    · right; left
      exact hm
  · rw [mem_trailingSegment, heps, mul_one] at h
    rw [h.2.2.2]
    refine ⟨Or.inr (Or.inr ?_), Or.inr (Or.inl rfl)⟩
    exact deref_mem _ _ (by omega)
  · have hx1 := succ_lt_length_of_lt_lastIter P b x hx
    rw [mem_interiorSegment, heps, div_one, mul_one] at h
    rw [h.2]
    refine ⟨Or.inr (Or.inr (deref_mem _ _ (by omega))), ?_⟩
    rcases min_choice (deref P.criticalPoints_ (x + 1)) b with hm | hm
    · right; right
      show min _ _ ∈ _
      rw [hm]
      exact deref_mem _ _ hx1
    · right; left
      exact hm

/-- Instance of C8: the input `[5, 2]`, `[a, b] = [0, 10]` and the call over `[2, 5]`. -/
theorem integrate_endpoints_without_avoidance_witness :
    ((2 : ℚ), (5 : ℚ)) ∈ ((PiecewiseIntegral.create closeEnough QL_EPSILON widthIntegrator
        [5, 2] false).integrate closeEnough id 0 10).2 ∧
    (((2 : ℚ) = 0 ∨ (2 : ℚ) = 10 ∨ (2 : ℚ) ∈ (PiecewiseIntegral.create closeEnough QL_EPSILON
        widthIntegrator [5, 2] false).criticalPoints_) ∧
      ((5 : ℚ) = 0 ∨ (5 : ℚ) = 10 ∨ (5 : ℚ) ∈ (PiecewiseIntegral.create closeEnough QL_EPSILON
        widthIntegrator [5, 2] false).criticalPoints_)) :=
  ⟨by decide!,
    integrate_endpoints_without_avoidance closeEnough QL_EPSILON widthIntegrator [5, 2] id 0 10
      (2, 5) (by decide!)⟩

/-! ## Avoidance of the critical points -/

/-- C5, the code at a negative critical point: with the critical point `-1`, avoidance
enabled and `[a, b] = [-2, 0]`, `integrate` issues the calls over `[-2, -1/eps]` and
`[-1*eps, 0]`, and each of the two intervals contains the critical point `-1`. -/
theorem integrate_negative_point_inside_calls :
    (PiecewiseIntegral.create closeEnough QL_EPSILON widthIntegrator [-1]
      true).criticalPoints_ = [-1] ∧
    ((PiecewiseIntegral.create closeEnough QL_EPSILON widthIntegrator [-1] true).integrate
      closeEnough id (-2) 0).2 =
        [(-2, -1 / (1 + QL_EPSILON)), (-1 * (1 + QL_EPSILON), 0)] ∧
    ((-2 : ℚ) ≤ -1 ∧ (-1 : ℚ) ≤ -1 / (1 + QL_EPSILON)) ∧
    ((-1 : ℚ) * (1 + QL_EPSILON) ≤ -1 ∧ (-1 : ℚ) ≤ 0) := by
  decide!

/-- In exact arithmetic, where the critical points are strictly positive the intervals
passed to the delegate contain none of them, whatever `close_enough` is: with avoidance
enabled (`ε > 0`), `lower <= c <= upper` holds for no delegate call and no stored point
`c`. -/
theorem integrate_positive_points_outside_calls (close_enough : ℚ → ℚ → Bool) (ε : ℚ)
    (hε : 0 < ε) (integrator : Integrator) (criticalPoints : List ℚ)
    (hpos : ∀ c ∈ criticalPoints, 0 < c) (f : ℚ → ℚ) (a b : ℚ) :
    ∀ call ∈ ((PiecewiseIntegral.create close_enough ε integrator criticalPoints
        true).integrate close_enough f a b).2,
      ∀ c ∈ (PiecewiseIntegral.create close_enough ε integrator criticalPoints
        true).criticalPoints_, ¬ (call.1 ≤ c ∧ c ≤ call.2) := by
  intro call hcall c hc
  exact calls_exclude_positive_points close_enough
    (PiecewiseIntegral.create close_enough ε integrator criticalPoints true) f a b
    (by show 1 < 1 + ε; linarith)
    (unique_sort_sorted close_enough criticalPoints)
    (fun c hc => hpos c (mem_unique_sort close_enough criticalPoints c hc))
    call hcall c hc

/-- C6, the claim fails: with the critical point `1`, avoidance enabled and
`[a, b] = [0, 2]`, `integrate` issues the calls over `[0, 1/eps]` and `[1*eps, 2]`; the
endpoints `1/eps` and `1*eps` are both tolerance-close to the critical point `1`. -/
theorem integrate_endpoint_close_to_point :
    (1 : ℚ) ∈ (PiecewiseIntegral.create closeEnough QL_EPSILON widthIntegrator [1]
      true).criticalPoints_ ∧
    ((PiecewiseIntegral.create closeEnough QL_EPSILON widthIntegrator [1] true).integrate
      closeEnough id 0 2).2 = [(0, 1 / (1 + QL_EPSILON)), (1 * (1 + QL_EPSILON), 2)] ∧
    closeEnough (1 / (1 + QL_EPSILON)) 1 = true ∧
    closeEnough (1 * (1 + QL_EPSILON)) 1 = true := by
  decide!

/-- C6, amended: in `double` arithmetic with avoidance enabled (`eps = 1 + 2^-52`), a
`close_enough` that holds from every positive value up to that value nudged twice,
strictly positive critical points that are `double` values, a `double` value `a` and
`a <= b`: each stored critical point is at or below both endpoints of a delegate call of
`integrate`, or at or above both. When moreover every critical point is at least
`2^-1022` (the smallest normal `double`), no endpoint of a delegate call equals a stored
critical point: the point is strictly below both endpoints or strictly above both. -/
theorem integrate_endpoints_beside_points (close_enough : ℚ → ℚ → Bool)
    (hnear : ∀ x y, 0 < x → x ≤ y → y ≤ x * (1 + QL_EPSILON) * (1 + QL_EPSILON) →
      close_enough x y = true)
    (integrator : Integrator) (criticalPoints : List ℚ)
    (hpos : ∀ c ∈ criticalPoints, 0 < c)
    (hdbl : ∀ c ∈ criticalPoints, roundToDouble c = c)
    (f : ℚ → ℚ) (a b : ℚ) (hab : a ≤ b) (ha : roundToDouble a = a) :
    ∀ call ∈ ((PiecewiseIntegral.create close_enough QL_EPSILON integrator criticalPoints
        true).integrateRounded roundToDouble close_enough f a b).2,
      ∀ c ∈ (PiecewiseIntegral.create close_enough QL_EPSILON integrator criticalPoints
        true).criticalPoints_,
      ((c ≤ call.1 ∧ c ≤ call.2) ∨ (call.1 ≤ c ∧ call.2 ≤ c)) ∧
      ((∀ d ∈ criticalPoints, 1 / 2 ^ 1022 ≤ d) →
        call.1 ≠ c ∧ call.2 ≠ c ∧
        ((c < call.1 ∧ c < call.2) ∨ (call.1 < c ∧ call.2 < c))) := by
  intro call hcall c hc
  have hε := QL_EPSILON_pos
  have hnear1 : ∀ x y, 0 < x → x ≤ y → y ≤ x * (1 + QL_EPSILON) →
      close_enough x y = true := by
    intro x y hx hxy hy
    refine hnear x y hx hxy (le_trans hy ?_)
    exact le_mul_of_one_le_right (mul_nonneg hx.le (by linarith)) (by linarith)
  have hnear2 : ∀ x y, 0 < x → x ≤ y → y ≤ x * ((1 + QL_EPSILON) * (1 + QL_EPSILON)) →
      close_enough x y = true := by
    intro x y hx hxy hy
    rw [← mul_assoc] at hy
    exact hnear x y hx hxy hy
  have hmem : ∀ d ∈ (PiecewiseIntegral.create close_enough QL_EPSILON integrator
      criticalPoints true).criticalPoints_, d ∈ criticalPoints :=
    fun d hd => mem_unique_sort close_enough criticalPoints d hd
  have he : 1 < (PiecewiseIntegral.create close_enough QL_EPSILON integrator criticalPoints
      true).eps_ := by
    show 1 < 1 + QL_EPSILON
    linarith
  have heps : (PiecewiseIntegral.create close_enough QL_EPSILON integrator criticalPoints
      true).eps_ = 1 + QL_EPSILON := rfl
  constructor
  · exact calls_rounded_beside_points roundToDouble close_enough
      (PiecewiseIntegral.create close_enough QL_EPSILON integrator criticalPoints true) f a b
      he (unique_sort_sorted close_enough criticalPoints)
      (fun d hd => hpos d (hmem d hd))
      (fun i j hij hj => by
        rw [heps]
        exact nudge_lt_later close_enough (1 + QL_EPSILON) hnear1 criticalPoints hpos i j hij hj)
      roundToDouble_mono (fun d hd => hdbl d (hmem d hd)) hab call hcall c hc
  · intro hnorm
    have hside := calls_rounded_avoid_points roundToDouble close_enough
      (PiecewiseIntegral.create close_enough QL_EPSILON integrator criticalPoints true) f a b
      he (unique_sort_sorted close_enough criticalPoints)
      (fun d hd => hpos d (hmem d hd))
      (fun i j hij hj => by
        rw [heps]
        exact nudge_lt_later close_enough ((1 + QL_EPSILON) * (1 + QL_EPSILON)) hnear2
          criticalPoints hpos i j hij hj)
      (fun x hx => hnear1 x x hx (le_refl x) (le_mul_of_one_le_right hx.le (by linarith)))
      roundToDouble_mono
      (fun d hd => by
        rw [heps]
        exact ⟨roundToDouble_nudge_lt d (hnorm d (hmem d hd)),
          lt_roundToDouble_nudge d (hnorm d (hmem d hd))⟩)
      ha hab call hcall c hc
    rcases hside with h | h
    · exact ⟨ne_of_gt h.1, ne_of_gt h.2, Or.inl h⟩
    · exact ⟨ne_of_lt h.1, ne_of_lt h.2, Or.inr h⟩

/-- Instance of the amended C6: the input `[5, 2]`, `[a, b] = [0, 10]`, the call over
`[2 + 2^-51, 5 - 2^-50]` (the rounded `2*eps` and `5/eps`) and the critical point 5. -/
theorem integrate_endpoints_beside_points_witness :
    (∀ x y, 0 < x → x ≤ y → y ≤ x * (1 + QL_EPSILON) * (1 + QL_EPSILON) →
      closeEnough x y = true) ∧
    (∀ c ∈ [(5 : ℚ), 2], 0 < c) ∧ (∀ c ∈ [(5 : ℚ), 2], roundToDouble c = c) ∧
    (0 : ℚ) ≤ 10 ∧ roundToDouble 0 = 0 ∧ (∀ d ∈ [(5 : ℚ), 2], 1 / 2 ^ 1022 ≤ d) ∧
    ((2 : ℚ) + 1 / 2 ^ 51, (5 : ℚ) - 1 / 2 ^ 50) ∈
      ((PiecewiseIntegral.create closeEnough QL_EPSILON widthIntegrator [5, 2]
        true).integrateRounded roundToDouble closeEnough id 0 10).2 ∧
    (5 : ℚ) ∈ (PiecewiseIntegral.create closeEnough QL_EPSILON widthIntegrator [5, 2]
        true).criticalPoints_ ∧
    ((((5 : ℚ) ≤ 2 + 1 / 2 ^ 51 ∧ (5 : ℚ) ≤ 5 - 1 / 2 ^ 50) ∨
        ((2 : ℚ) + 1 / 2 ^ 51 ≤ 5 ∧ (5 : ℚ) - 1 / 2 ^ 50 ≤ 5)) ∧
      ((2 : ℚ) + 1 / 2 ^ 51 ≠ 5 ∧ (5 : ℚ) - 1 / 2 ^ 50 ≠ 5 ∧
        (((5 : ℚ) < 2 + 1 / 2 ^ 51 ∧ (5 : ℚ) < 5 - 1 / 2 ^ 50) ∨
          ((2 : ℚ) + 1 / 2 ^ 51 < 5 ∧ (5 : ℚ) - 1 / 2 ^ 50 < 5)))) :=
  ⟨closeEnough_nudge_twice, by decide!, by decide!, by norm_num, by decide!, by decide!,
    by decide!, by decide!,
    (integrate_endpoints_beside_points closeEnough closeEnough_nudge_twice widthIntegrator
      [5, 2] (by decide!) (by decide!) id 0 10 (by norm_num) (by decide!)
      (2 + 1 / 2 ^ 51, 5 - 1 / 2 ^ 50) (by decide!) 5 (by decide!)).1,
    (integrate_endpoints_beside_points closeEnough closeEnough_nudge_twice widthIntegrator
      [5, 2] (by decide!) (by decide!) id 0 10 (by norm_num) (by decide!)
      (2 + 1 / 2 ^ 51, 5 - 1 / 2 ^ 50) (by decide!) 5 (by decide!)).2 (by decide!)⟩

/-! ## Suppression of the leading and the trailing segment -/

/-- C9, the claim fails: with the critical points `1` and `2`, `a = 1 + QL_EPSILON` and
`b = 3`, the bound `a` is tolerance-close to the critical point `1`, and the leading
segment issues the delegate call over `[a, 2/eps]`, whose lower endpoint is `a`. -/
theorem leading_segment_issued_near_lower_point :
    (1 : ℚ) + QL_EPSILON ≤ 3 ∧
    (1 : ℚ) ∈ (PiecewiseIntegral.create closeEnough QL_EPSILON widthIntegrator [1, 2]
      true).criticalPoints_ ∧
    closeEnough (1 + QL_EPSILON) 1 = true ∧
    ((PiecewiseIntegral.create closeEnough QL_EPSILON widthIntegrator [1, 2]
      true).leadingSegment closeEnough id (1 + QL_EPSILON) 3
        (lower_bound (PiecewiseIntegral.create closeEnough QL_EPSILON widthIntegrator [1, 2]
          true).criticalPoints_ (1 + QL_EPSILON))).2 =
      [(1 + QL_EPSILON, 2 / (1 + QL_EPSILON))] ∧
    ((PiecewiseIntegral.create closeEnough QL_EPSILON widthIntegrator [1, 2] true).integrate
      closeEnough id (1 + QL_EPSILON) 3).2 =
      [(1 + QL_EPSILON, 2 / (1 + QL_EPSILON)), (2 * (1 + QL_EPSILON), 3)] := by
  decide!

/-- C9, amended: when some stored critical point is `>= a` and `a` is tolerance-close to
the first such point (the one `lower_bound` locates), the leading segment issues no
delegate call: the calls of `integrate` are those of the trailing segment followed by
those of the interior segments. -/
theorem leading_segment_suppressed (close_enough : ℚ → ℚ → Bool) (ε : ℚ)
    (integrator : Integrator) (criticalPoints : List ℚ) (avoidCriticalPoints : Bool)
    (f : ℚ → ℚ) (a b : ℚ)
    (h0 : lower_bound (PiecewiseIntegral.create close_enough ε integrator criticalPoints
        avoidCriticalPoints).criticalPoints_ a <
      (PiecewiseIntegral.create close_enough ε integrator criticalPoints
        avoidCriticalPoints).criticalPoints_.length)
    (hclose : close_enough a (deref (PiecewiseIntegral.create close_enough ε integrator
        criticalPoints avoidCriticalPoints).criticalPoints_
      (lower_bound (PiecewiseIntegral.create close_enough ε integrator criticalPoints
        avoidCriticalPoints).criticalPoints_ a)) = true) :
    ((PiecewiseIntegral.create close_enough ε integrator criticalPoints
        avoidCriticalPoints).leadingSegment close_enough f a b
      (lower_bound (PiecewiseIntegral.create close_enough ε integrator criticalPoints
        avoidCriticalPoints).criticalPoints_ a)).2 = [] ∧
    ((PiecewiseIntegral.create close_enough ε integrator criticalPoints
        avoidCriticalPoints).integrate close_enough f a b).2 =
      ((PiecewiseIntegral.create close_enough ε integrator criticalPoints
          avoidCriticalPoints).trailingSegment close_enough f b
        (lower_bound (PiecewiseIntegral.create close_enough ε integrator criticalPoints
          avoidCriticalPoints).criticalPoints_ b)).2 ++
      (List.range'
        (lower_bound (PiecewiseIntegral.create close_enough ε integrator criticalPoints
          avoidCriticalPoints).criticalPoints_ a)
        ((PiecewiseIntegral.create close_enough ε integrator criticalPoints
            avoidCriticalPoints).lastIter
          (lower_bound (PiecewiseIntegral.create close_enough ε integrator criticalPoints
            avoidCriticalPoints).criticalPoints_ b) -
          lower_bound (PiecewiseIntegral.create close_enough ε integrator criticalPoints
            avoidCriticalPoints).criticalPoints_ a)).flatMap
        (fun x => ((PiecewiseIntegral.create close_enough ε integrator criticalPoints
          avoidCriticalPoints).interiorSegment close_enough f b x).2) := by
  generalize hP : PiecewiseIntegral.create close_enough ε integrator criticalPoints
    avoidCriticalPoints = P at h0 hclose ⊢
  have hlead : (P.leadingSegment close_enough f a b (lower_bound P.criticalPoints_ a)).2 = [] := by
    unfold PiecewiseIntegral.leadingSegment
    simp [hclose]
  refine ⟨hlead, ?_⟩
  rw [integrate_snd, if_neg (Nat.ne_of_lt h0), hlead, List.nil_append]

/-- Instance of the amended C9: the input `[1, 2]`, `a = 1` on the first critical point and
`b = 3`. -/
theorem leading_segment_suppressed_witness :
    lower_bound (PiecewiseIntegral.create closeEnough QL_EPSILON widthIntegrator [1, 2]
        true).criticalPoints_ (1 : ℚ) <
      (PiecewiseIntegral.create closeEnough QL_EPSILON widthIntegrator [1, 2]
        true).criticalPoints_.length ∧
    closeEnough (1 : ℚ) (deref (PiecewiseIntegral.create closeEnough QL_EPSILON widthIntegrator [1, 2]
        true).criticalPoints_
      (lower_bound (PiecewiseIntegral.create closeEnough QL_EPSILON widthIntegrator [1, 2]
        true).criticalPoints_ (1 : ℚ))) = true ∧
    (((PiecewiseIntegral.create closeEnough QL_EPSILON widthIntegrator [1, 2]
        true).leadingSegment closeEnough id (1 : ℚ) (3 : ℚ)
      (lower_bound (PiecewiseIntegral.create closeEnough QL_EPSILON widthIntegrator [1, 2]
        true).criticalPoints_ (1 : ℚ))).2 = [] ∧
    ((PiecewiseIntegral.create closeEnough QL_EPSILON widthIntegrator [1, 2]
        true).integrate closeEnough id (1 : ℚ) (3 : ℚ)).2 =
      ((PiecewiseIntegral.create closeEnough QL_EPSILON widthIntegrator [1, 2]
        true).trailingSegment closeEnough id (3 : ℚ)
        (lower_bound (PiecewiseIntegral.create closeEnough QL_EPSILON widthIntegrator [1, 2]
        true).criticalPoints_ (3 : ℚ))).2 ++
      (List.range'
        (lower_bound (PiecewiseIntegral.create closeEnough QL_EPSILON widthIntegrator [1, 2]
        true).criticalPoints_ (1 : ℚ))
        ((PiecewiseIntegral.create closeEnough QL_EPSILON widthIntegrator [1, 2]
        true).lastIter
          (lower_bound (PiecewiseIntegral.create closeEnough QL_EPSILON widthIntegrator [1, 2]
        true).criticalPoints_ (3 : ℚ)) -
          lower_bound (PiecewiseIntegral.create closeEnough QL_EPSILON widthIntegrator [1, 2]
        true).criticalPoints_ (1 : ℚ))).flatMap
        (fun x => ((PiecewiseIntegral.create closeEnough QL_EPSILON widthIntegrator [1, 2]
        true).interiorSegment closeEnough id (3 : ℚ) x).2)) :=
  ⟨by decide!, by decide!,
    leading_segment_suppressed closeEnough QL_EPSILON widthIntegrator [1, 2] true id 1 3
      (by decide!) (by decide!)⟩

/-- C10: for a symmetric `close_enough` that, whenever it holds between two values, also
holds between any value in between and the upper one: if `b` is tolerance-close to some
stored critical point, the trailing segment issues no delegate call, so the calls of
`integrate(f, a, b)` are those of the whole-interval branch, or those of the leading
segment followed by those of the interior segments. -/
theorem trailing_segment_suppressed (close_enough : ℚ → ℚ → Bool)
    (hsymm : ∀ x y, close_enough x y = close_enough y x)
    (hconv : ∀ x y z, x ≤ y → y ≤ z → close_enough x z = true → close_enough y z = true)
    (ε : ℚ) (integrator : Integrator) (criticalPoints : List ℚ) (avoidCriticalPoints : Bool)
    (f : ℚ → ℚ) (a b c : ℚ)
    (hc : c ∈ (PiecewiseIntegral.create close_enough ε integrator criticalPoints
        avoidCriticalPoints).criticalPoints_)
    (hclose : close_enough b c = true) :
    (((PiecewiseIntegral.create close_enough ε integrator criticalPoints
        avoidCriticalPoints).trailingSegment close_enough f b
      (lower_bound (PiecewiseIntegral.create close_enough ε integrator criticalPoints
        avoidCriticalPoints).criticalPoints_ b)).2 = [] ∧
    ((PiecewiseIntegral.create close_enough ε integrator criticalPoints
        avoidCriticalPoints).integrate close_enough f a b).2 =
      if lower_bound (PiecewiseIntegral.create close_enough ε integrator criticalPoints
        avoidCriticalPoints).criticalPoints_ a =
          (PiecewiseIntegral.create close_enough ε integrator criticalPoints
        avoidCriticalPoints).criticalPoints_.length then
        ((PiecewiseIntegral.create close_enough ε integrator criticalPoints
        avoidCriticalPoints).wholeSegment close_enough f a b).2
      else
        ((PiecewiseIntegral.create close_enough ε integrator criticalPoints
        avoidCriticalPoints).leadingSegment close_enough f a b
          (lower_bound (PiecewiseIntegral.create close_enough ε integrator criticalPoints
        avoidCriticalPoints).criticalPoints_ a)).2 ++
        (List.range'
          (lower_bound (PiecewiseIntegral.create close_enough ε integrator criticalPoints
        avoidCriticalPoints).criticalPoints_ a)
          ((PiecewiseIntegral.create close_enough ε integrator criticalPoints
        avoidCriticalPoints).lastIter
            (lower_bound (PiecewiseIntegral.create close_enough ε integrator criticalPoints
        avoidCriticalPoints).criticalPoints_ b) -
            lower_bound (PiecewiseIntegral.create close_enough ε integrator criticalPoints
        avoidCriticalPoints).criticalPoints_ a)).flatMap
          (fun x => ((PiecewiseIntegral.create close_enough ε integrator criticalPoints
        avoidCriticalPoints).interiorSegment close_enough f b x).2)) := by
  generalize hP : PiecewiseIntegral.create close_enough ε integrator criticalPoints
    avoidCriticalPoints = P at hc ⊢
  have hs : P.criticalPoints_.Sorted (fun x y => x ≤ y) := by
    rw [← hP]; exact unique_sort_sorted close_enough criticalPoints
  have htrail : (P.trailingSegment close_enough f b (lower_bound P.criticalPoints_ b)).2
      = [] := by
    unfold PiecewiseIntegral.trailingSegment
    by_cases hb : lower_bound P.criticalPoints_ b = P.criticalPoints_.length
    · obtain ⟨i, hi, hci⟩ := exists_deref_of_mem _ c hc
      have hcb : c < b := lt_of_lower_bound_eq_length _ b hb c hc
      have hcl : c ≤ deref P.criticalPoints_ (lower_bound P.criticalPoints_ b - 1) :=
        hci ▸ deref_mono _ hs i _ (by omega) (by omega)
      have hlb : deref P.criticalPoints_ (lower_bound P.criticalPoints_ b - 1) < b :=
        deref_lt_of_lt_lower_bound _ b _ (by omega)
      have hlast := hconv c _ b hcl hlb.le (by rw [hsymm]; exact hclose)
      simp [hb, hlast]
      rw [← hb]
      simp [hlast]
    · simp [hb]
  refine ⟨htrail, ?_⟩
  rw [integrate_snd, htrail, List.append_nil]

/-- Instance of C10: the input `[1, 2]`, `a = 0` and `b = 2 * (1 + QL_EPSILON)`, which is
tolerance-close to the last critical point. -/
theorem trailing_segment_suppressed_witness :
    (∀ x y, closeEnough x y = closeEnough y x) ∧
    (∀ x y z, x ≤ y → y ≤ z → closeEnough x z = true → closeEnough y z = true) ∧
    (2 : ℚ) ∈ (PiecewiseIntegral.create closeEnough QL_EPSILON widthIntegrator [1, 2]
        true).criticalPoints_ ∧
    closeEnough (2 * (1 + QL_EPSILON)) 2 = true ∧
    (((PiecewiseIntegral.create closeEnough QL_EPSILON widthIntegrator [1, 2]
        true).trailingSegment closeEnough id (2 * (1 + QL_EPSILON))
      (lower_bound (PiecewiseIntegral.create closeEnough QL_EPSILON widthIntegrator [1, 2]
        true).criticalPoints_ (2 * (1 + QL_EPSILON)))).2 = [] ∧
    ((PiecewiseIntegral.create closeEnough QL_EPSILON widthIntegrator [1, 2]
        true).integrate closeEnough id (0 : ℚ) (2 * (1 + QL_EPSILON))).2 =
      if lower_bound (PiecewiseIntegral.create closeEnough QL_EPSILON widthIntegrator [1, 2]
        true).criticalPoints_ (0 : ℚ) =
          (PiecewiseIntegral.create closeEnough QL_EPSILON widthIntegrator [1, 2]
        true).criticalPoints_.length then
        ((PiecewiseIntegral.create closeEnough QL_EPSILON widthIntegrator [1, 2]
        true).wholeSegment closeEnough id (0 : ℚ) (2 * (1 + QL_EPSILON))).2
      else
        ((PiecewiseIntegral.create closeEnough QL_EPSILON widthIntegrator [1, 2]
        true).leadingSegment closeEnough id (0 : ℚ) (2 * (1 + QL_EPSILON))
          (lower_bound (PiecewiseIntegral.create closeEnough QL_EPSILON widthIntegrator [1, 2]
        true).criticalPoints_ (0 : ℚ))).2 ++
        (List.range'
          (lower_bound (PiecewiseIntegral.create closeEnough QL_EPSILON widthIntegrator [1, 2]
        true).criticalPoints_ (0 : ℚ))
          ((PiecewiseIntegral.create closeEnough QL_EPSILON widthIntegrator [1, 2]
        true).lastIter
            (lower_bound (PiecewiseIntegral.create closeEnough QL_EPSILON widthIntegrator [1, 2]
        true).criticalPoints_ (2 * (1 + QL_EPSILON))) -
            lower_bound (PiecewiseIntegral.create closeEnough QL_EPSILON widthIntegrator [1, 2]
        true).criticalPoints_ (0 : ℚ))).flatMap
          (fun x => ((PiecewiseIntegral.create closeEnough QL_EPSILON widthIntegrator [1, 2]
        true).interiorSegment closeEnough id (2 * (1 + QL_EPSILON)) x).2)) :=
  ⟨closeEnough_symm, closeEnough_between, by decide!, by decide!,
    trailing_segment_suppressed closeEnough closeEnough_symm closeEnough_between QL_EPSILON
      widthIntegrator [1, 2] true id 0 (2 * (1 + QL_EPSILON)) 2 (by decide!) (by decide!)⟩

/-! ## Critical points outside the interval -/

/-- C12: `integrate_h(f, l, u)` returns 0 without a delegate call when
`close_enough(l, u)` holds and otherwise returns the delegate's value on `(f, l, u)`
from that one call; so no delegate call of `integrate`, for any inputs, has
tolerance-close endpoints. -/
theorem integrate_h_guard (close_enough : ℚ → ℚ → Bool) (ε : ℚ) (integrator : Integrator)
    (criticalPoints : List ℚ) (avoidCriticalPoints : Bool) (f : ℚ → ℚ) :
    (∀ l u, (PiecewiseIntegral.create close_enough ε integrator criticalPoints
        avoidCriticalPoints).integrate_h close_enough f l u =
      if close_enough l u then (0, []) else (integrator f l u, [(l, u)])) ∧
    (∀ a b, ∀ call ∈ ((PiecewiseIntegral.create close_enough ε integrator criticalPoints
        avoidCriticalPoints).integrate close_enough f a b).2,
      close_enough call.1 call.2 = false) := by
  constructor
  · intro l u
    unfold PiecewiseIntegral.integrate_h
    cases close_enough l u <;> rfl
  · intro a b call hcall
    rw [mem_integrate] at hcall
    rcases hcall with ⟨_, h⟩ | ⟨_, h | h | ⟨x, _, _, h⟩⟩
    · obtain ⟨tmp, _, hce, hc⟩ := mem_wholeSegment _ _ _ _ _ _ h
      rw [hc]; exact hce
    · rw [mem_leadingSegment] at h
      rw [h.2.2]; exact h.2.1
    · rw [mem_trailingSegment] at h
      rw [h.2.2.2]; exact h.2.2.1
    · rw [mem_interiorSegment] at h
      rw [h.2]; exact h.1

/-- Instance of C12: the input `[5, 2]`, `[a, b] = [0, 10]` and the call over
`[2*eps, 5/eps]`. -/
theorem integrate_h_guard_witness :
    (2 * (1 + QL_EPSILON), 5 / (1 + QL_EPSILON)) ∈
      ((PiecewiseIntegral.create closeEnough QL_EPSILON widthIntegrator [5, 2]
        true).integrate closeEnough id 0 10).2 ∧
    closeEnough (2 * (1 + QL_EPSILON)) (5 / (1 + QL_EPSILON)) = false :=
  ⟨by decide!,
    (integrate_h_guard closeEnough QL_EPSILON widthIntegrator [5, 2] true id).2 0 10
      (2 * (1 + QL_EPSILON), 5 / (1 + QL_EPSILON)) (by decide!)⟩

/-! ## The scenario with critical points 2 and 5 on `[0, 10]` -/

/-- C14, the claim fails: in `double` arithmetic with avoidance enabled
(`eps = 1 + 2^-52`), the critical points `[2, 5]`, the interval `[0, 10]` and the delegate
that returns the rounded `upper - lower`, `integrate` returns `10 - 2^-48`. That is not
`10 + 7*(1/eps - eps)`, and it is below 10 by `16*(eps - 1)`, which is not less than
`14*(eps - 1)`. -/
theorem two_points_scenario_value_in_double :
    (PiecewiseIntegral.create closeEnough QL_EPSILON (widthIntegratorRounded roundToDouble)
      [2, 5] true).eps_ = 1 + QL_EPSILON ∧
    ((PiecewiseIntegral.create closeEnough QL_EPSILON (widthIntegratorRounded roundToDouble)
      [2, 5] true).integrateRounded roundToDouble closeEnough id 0 10).1 = 10 - 1 / 2 ^ 48 ∧
    (10 : ℚ) - 1 / 2 ^ 48 ≠ 10 + 7 * (1 / (1 + QL_EPSILON) - (1 + QL_EPSILON)) ∧
    ¬ ((10 : ℚ) - (10 - 1 / 2 ^ 48) < 14 * ((1 + QL_EPSILON) - 1)) := by
  decide!

/-- C14, amended: in `double` arithmetic, for the critical points `[2, 5]`, the interval
`[0, 10]`, the delegate that returns the rounded `upper - lower` and a `close_enough`
that does not hold between values of `[0, 10]` at least 1 apart, `integrate` issues
exactly three delegate calls, the trailing one before the interior one. With avoidance
disabled they are over `[0, 2]`, `[5, 10]` and `[2, 5]` and the result is exactly 10.
With avoidance enabled (`eps = 1 + 2^-52`) they are over `[0, 2 - 2^-51]`,
`[5 + 2^-50, 10]` and `[2 + 2^-51, 5 - 2^-50]`, whose bounds are the rounded values of
`2/eps`, `5*eps`, `2*eps` and `5/eps`, and the result is `10 - 2^-48`, below 10 by
`16*(eps - 1)`. -/
theorem integrate_two_points_scenario_double (close_enough : ℚ → ℚ → Bool) (f : ℚ → ℚ)
    (hfar : ∀ l u : ℚ, 0 ≤ l → u ≤ 10 → l + 1 ≤ u → close_enough l u = false) :
    (PiecewiseIntegral.create close_enough QL_EPSILON (widthIntegratorRounded roundToDouble)
      [2, 5] false).integrateRounded roundToDouble close_enough f 0 10 =
      (10, [(0, 2), (5, 10), (2, 5)]) ∧
    (PiecewiseIntegral.create close_enough QL_EPSILON (widthIntegratorRounded roundToDouble)
      [2, 5] true).integrateRounded roundToDouble close_enough f 0 10 =
      (10 - 1 / 2 ^ 48,
        [(0, 2 - 1 / 2 ^ 51), (5 + 1 / 2 ^ 50, 10), (2 + 1 / 2 ^ 51, 5 - 1 / 2 ^ 50)]) ∧
    (roundToDouble (2 / (1 + QL_EPSILON)) = 2 - 1 / 2 ^ 51 ∧
      roundToDouble (5 * (1 + QL_EPSILON)) = 5 + 1 / 2 ^ 50 ∧
      roundToDouble (2 * (1 + QL_EPSILON)) = 2 + 1 / 2 ^ 51 ∧
      roundToDouble (5 / (1 + QL_EPSILON)) = 5 - 1 / 2 ^ 50) ∧
    (10 : ℚ) - (10 - 1 / 2 ^ 48) = 16 * ((1 + QL_EPSILON) - 1) := by
  have h25 : close_enough 2 5 = false := hfar 2 5 (by norm_num) (by norm_num) (by norm_num)
  have hsort : sort [2, 5] = [2, 5] := by decide!
  have ha0 : lower_bound [2, 5] (0 : ℚ) = 0 := by decide!
  have hb0 : lower_bound [2, 5] (10 : ℚ) = 2 := by decide!
  have d0 : deref ([2, 5] : List ℚ) 0 = 2 := rfl
  have d1 : deref ([2, 5] : List ℚ) (2 - 1) = 5 := rfl
  have d2 : deref ([2, 5] : List ℚ) (0 + 1) = 5 := rfl
  have hrange : List.range' 0 ((if True then 2 - 1 else 2) - 0) = [0] := rfl
  have hne : ¬ (0 = 0 + 1 + 1) := by decide
  have g1 : close_enough 0 2 = false := hfar _ _ (by norm_num) (by norm_num) (by norm_num)
  have g3 : close_enough 5 10 = false := hfar _ _ (by norm_num) (by norm_num) (by norm_num)
  refine ⟨?_, ?_, by decide!, by decide!⟩
  · -- avoidance disabled: `eps_ = 1`
    have hcps : (PiecewiseIntegral.create close_enough QL_EPSILON
        (widthIntegratorRounded roundToDouble) [2, 5] false).criticalPoints_ = [2, 5] := by
      show unique close_enough (sort [2, 5]) = [2, 5]
      rw [hsort]
      simp [unique, uniqueFrom, h25]
    have heps : (PiecewiseIntegral.create close_enough QL_EPSILON
        (widthIntegratorRounded roundToDouble) [2, 5] false).eps_ = 1 := rfl
    have hint : (PiecewiseIntegral.create close_enough QL_EPSILON
        (widthIntegratorRounded roundToDouble) [2, 5] false).integrator_ =
          widthIntegratorRounded roundToDouble := by
      simp only [PiecewiseIntegral.create]
    generalize PiecewiseIntegral.create close_enough QL_EPSILON
      (widthIntegratorRounded roundToDouble) [2, 5] false = P at hcps heps hint
    have r1 : min (roundToDouble (2 / 1)) 10 = 2 := by decide!
    have r2 : roundToDouble (5 * 1) = 5 := by decide!
    have r3 : roundToDouble (2 * 1) = 2 := by decide!
    have r4 : min (roundToDouble (5 / 1)) 10 = 5 := by decide!
    have s1 : roundToDouble (0 + roundToDouble (2 - 0)) = 2 := by decide!
    have s2 : roundToDouble (2 + roundToDouble (10 - 5)) = 7 := by decide!
    have s3 : roundToDouble (7 + roundToDouble (5 - 2)) = 10 := by decide!
    unfold PiecewiseIntegral.integrateRounded PiecewiseIntegral.interiorLoopRounded
      PiecewiseIntegral.leadingSegmentRounded PiecewiseIntegral.trailingSegmentRounded
      PiecewiseIntegral.interiorSegmentRounded PiecewiseIntegral.lastIter
    simp only [hcps, heps, hint, ha0, hb0, List.length_cons, List.length_nil]
    rw [if_neg hne, hrange]
    simp only [List.foldl_cons, List.foldl_nil, d0, d1, d2, r1, r2, r3, r4, g1, Bool.not_false,
      if_true, integrate_h_of_not_close close_enough P f _ _ g1,
      integrate_h_of_not_close close_enough P f _ _ g3,
      integrate_h_of_not_close close_enough P f _ _ h25, hint, Traced.addRounded,
      widthIntegratorRounded, List.nil_append, List.append_nil, List.cons_append, g3, s1, s2, s3]
  · -- avoidance enabled: `eps_ = 1 + QL_EPSILON`
    have hcps : (PiecewiseIntegral.create close_enough QL_EPSILON
        (widthIntegratorRounded roundToDouble) [2, 5] true).criticalPoints_ = [2, 5] := by
      show unique close_enough (sort [2, 5]) = [2, 5]
      rw [hsort]
      simp [unique, uniqueFrom, h25]
    have heps : (PiecewiseIntegral.create close_enough QL_EPSILON
        (widthIntegratorRounded roundToDouble) [2, 5] true).eps_ = 1 + QL_EPSILON := rfl
    have hint : (PiecewiseIntegral.create close_enough QL_EPSILON
        (widthIntegratorRounded roundToDouble) [2, 5] true).integrator_ =
          widthIntegratorRounded roundToDouble := by
      simp only [PiecewiseIntegral.create]
    generalize PiecewiseIntegral.create close_enough QL_EPSILON
      (widthIntegratorRounded roundToDouble) [2, 5] true = P at hcps heps hint
    have r1 : min (roundToDouble (2 / (1 + QL_EPSILON))) 10 = 2 - 1 / 2 ^ 51 := by decide!
    have r2 : roundToDouble (5 * (1 + QL_EPSILON)) = 5 + 1 / 2 ^ 50 := by decide!
    have r3 : roundToDouble (2 * (1 + QL_EPSILON)) = 2 + 1 / 2 ^ 51 := by decide!
    have r4 : min (roundToDouble (5 / (1 + QL_EPSILON))) 10 = 5 - 1 / 2 ^ 50 := by decide!
    have g2 : close_enough 0 (2 - 1 / 2 ^ 51) = false :=
      hfar _ _ (by norm_num) (by norm_num) (by norm_num)
    have g4 : close_enough (5 + 1 / 2 ^ 50) 10 = false :=
      hfar _ _ (by norm_num) (by norm_num) (by norm_num)
    have g5 : close_enough (2 + 1 / 2 ^ 51) (5 - 1 / 2 ^ 50) = false :=
      hfar _ _ (by norm_num) (by norm_num) (by norm_num)
    have s1 : roundToDouble (0 + roundToDouble (2 - 1 / 2 ^ 51 - 0)) = 2 - 1 / 2 ^ 51 := by
      decide!
    have s2 : roundToDouble (2 - 1 / 2 ^ 51 + roundToDouble (10 - (5 + 1 / 2 ^ 50))) =
        7 - 1 / 2 ^ 49 := by decide!
    have s3 : roundToDouble (7 - 1 / 2 ^ 49 +
        roundToDouble (5 - 1 / 2 ^ 50 - (2 + 1 / 2 ^ 51))) = 10 - 1 / 2 ^ 48 := by decide!
    unfold PiecewiseIntegral.integrateRounded PiecewiseIntegral.interiorLoopRounded
      PiecewiseIntegral.leadingSegmentRounded PiecewiseIntegral.trailingSegmentRounded
      PiecewiseIntegral.interiorSegmentRounded PiecewiseIntegral.lastIter
    simp only [hcps, heps, hint, ha0, hb0, List.length_cons, List.length_nil]
    rw [if_neg hne, hrange]
    simp only [List.foldl_cons, List.foldl_nil, d0, d1, d2, r1, r2, r3, r4, g1, Bool.not_false,
      if_true, integrate_h_of_not_close close_enough P f _ _ g2,
      integrate_h_of_not_close close_enough P f _ _ g4,
      integrate_h_of_not_close close_enough P f _ _ g5, hint, Traced.addRounded,
      widthIntegratorRounded, List.nil_append, List.append_nil, List.cons_append, g3, s1, s2, s3]

/-- Instance of the amended C14: the model of `close_enough` and the integrand `id`. -/
theorem integrate_two_points_scenario_double_witness :
    (∀ l u : ℚ, 0 ≤ l → u ≤ 10 → l + 1 ≤ u → closeEnough l u = false) ∧
    ((PiecewiseIntegral.create closeEnough QL_EPSILON (widthIntegratorRounded roundToDouble)
      [2, 5] false).integrateRounded roundToDouble closeEnough id 0 10 =
      (10, [(0, 2), (5, 10), (2, 5)]) ∧
    (PiecewiseIntegral.create closeEnough QL_EPSILON (widthIntegratorRounded roundToDouble)
      [2, 5] true).integrateRounded roundToDouble closeEnough id 0 10 =
      (10 - 1 / 2 ^ 48,
        [(0, 2 - 1 / 2 ^ 51), (5 + 1 / 2 ^ 50, 10), (2 + 1 / 2 ^ 51, 5 - 1 / 2 ^ 50)]) ∧
    (roundToDouble (2 / (1 + QL_EPSILON)) = 2 - 1 / 2 ^ 51 ∧
      roundToDouble (5 * (1 + QL_EPSILON)) = 5 + 1 / 2 ^ 50 ∧
      roundToDouble (2 * (1 + QL_EPSILON)) = 2 + 1 / 2 ^ 51 ∧
      roundToDouble (5 / (1 + QL_EPSILON)) = 5 - 1 / 2 ^ 50) ∧
    (10 : ℚ) - (10 - 1 / 2 ^ 48) = 16 * ((1 + QL_EPSILON) - 1)) :=
  ⟨closeEnough_far, integrate_two_points_scenario_double closeEnough id closeEnough_far⟩

/-! ## The interior segments -/

/-- C17: for every critical-point list and every `a` and `b`, one call of
`integrate(f, a, b)` issues at most 1 plus the number of stored critical points `c` with
`a <= c < b` delegate calls, hence at most 1 plus the number of stored critical points. -/
theorem integrate_calls_bounded (close_enough : ℚ → ℚ → Bool) (ε : ℚ)
    (integrator : Integrator) (criticalPoints : List ℚ) (avoidCriticalPoints : Bool)
    (f : ℚ → ℚ) (a b : ℚ) :
    ((PiecewiseIntegral.create close_enough ε integrator criticalPoints
        avoidCriticalPoints).integrate close_enough f a b).2.length ≤
      1 + ((PiecewiseIntegral.create close_enough ε integrator criticalPoints
        avoidCriticalPoints).criticalPoints_.filter
          (fun c => decide (a ≤ c ∧ c < b))).length ∧
    ((PiecewiseIntegral.create close_enough ε integrator criticalPoints
        avoidCriticalPoints).integrate close_enough f a b).2.length ≤
      1 + (PiecewiseIntegral.create close_enough ε integrator criticalPoints
        avoidCriticalPoints).criticalPoints_.length := by
  have hs := unique_sort_sorted close_enough criticalPoints
  generalize hP : PiecewiseIntegral.create close_enough ε integrator criticalPoints
    avoidCriticalPoints = P
  have hs' : P.criticalPoints_.Sorted (fun x y => x ≤ y) := by rw [← hP]; exact hs
  have hfirst : (P.integrate close_enough f a b).2.length ≤
      1 + (P.criticalPoints_.filter (fun c => decide (a ≤ c ∧ c < b))).length := by
    rw [integrate_snd]
    by_cases h0 : lower_bound P.criticalPoints_ a = P.criticalPoints_.length
    · rw [if_pos h0]
      have : (P.wholeSegment close_enough f a b).2.length ≤ 1 :=
        integrate_h_length_le _ _ _ _ _
      omega
    · rw [if_neg h0, List.length_append, List.length_append]
      have ha0 := lower_bound_le_length P.criticalPoints_ a
      have hb0 := lower_bound_le_length P.criticalPoints_ b
      have hlead : (P.leadingSegment close_enough f a b
          (lower_bound P.criticalPoints_ a)).2.length ≤ 1 := by
        unfold PiecewiseIntegral.leadingSegment
        split
        · exact integrate_h_length_le _ _ _ _ _
        · simp
      have hflat := length_flatMap_le (fun x => (P.interiorSegment close_enough f b x).2)
        (fun x => integrate_h_length_le _ _ _ _ _)
        (List.range' (lower_bound P.criticalPoints_ a)
          (P.lastIter (lower_bound P.criticalPoints_ b) - lower_bound P.criticalPoints_ a))
      rw [List.length_range'] at hflat
      have hin : ∀ k, lower_bound P.criticalPoints_ a ≤ k →
          k < lower_bound P.criticalPoints_ b →
          decide (a ≤ deref P.criticalPoints_ k ∧ deref P.criticalPoints_ k < b) = true := by
        intro k hk1 hk2
        rw [decide_eq_true_iff]
        exact ⟨le_deref_of_lower_bound_le _ hs' a k hk1 (by omega),
          deref_lt_of_lt_lower_bound _ b k hk2⟩
      have hcount := sub_le_length_filter (fun c => decide (a ≤ c ∧ c < b)) P.criticalPoints_
        (lower_bound P.criticalPoints_ a) (lower_bound P.criticalPoints_ b) hb0 hin
      by_cases hb : lower_bound P.criticalPoints_ b = P.criticalPoints_.length
      · have htrail : (P.trailingSegment close_enough f b
            (lower_bound P.criticalPoints_ b)).2.length ≤ 1 := by
          unfold PiecewiseIntegral.trailingSegment
          rw [if_pos hb]
          split
          · exact integrate_h_length_le _ _ _ _ _
          · simp
        have hl : P.lastIter (lower_bound P.criticalPoints_ b) =
            lower_bound P.criticalPoints_ b - 1 := by
          unfold PiecewiseIntegral.lastIter
          rw [if_pos hb]
        rw [hl] at hflat ⊢
        omega
      · have htrail : (P.trailingSegment close_enough f b
            (lower_bound P.criticalPoints_ b)).2.length = 0 := by
          unfold PiecewiseIntegral.trailingSegment
          rw [if_neg hb]
          rfl
        have hl : P.lastIter (lower_bound P.criticalPoints_ b) =
            lower_bound P.criticalPoints_ b := by
          unfold PiecewiseIntegral.lastIter
          rw [if_neg hb]
        rw [hl] at hflat ⊢
        omega
  refine ⟨hfirst, le_trans hfirst ?_⟩
  have := List.length_filter_le (fun c => decide (a ≤ c ∧ c < b)) P.criticalPoints_
  omega

/-! ## The input as a set -/

/-- C19: for a reflexive `close_enough`, two input lists with the same set of elements
(any order, any multiplicity of exact duplicates) give the same stored critical points,
hence the same result and delegate calls of `integrate` for every `f`, `a`, `b`. -/
theorem create_depends_on_set (close_enough : ℚ → ℚ → Bool)
    (hrefl : ∀ x, close_enough x x = true) (ε : ℚ) (integrator : Integrator)
    (criticalPoints criticalPoints' : List ℚ) (avoidCriticalPoints : Bool)
    (hset : ∀ x, x ∈ criticalPoints ↔ x ∈ criticalPoints') :
    (PiecewiseIntegral.create close_enough ε integrator criticalPoints
      avoidCriticalPoints).criticalPoints_ =
    (PiecewiseIntegral.create close_enough ε integrator criticalPoints'
      avoidCriticalPoints).criticalPoints_ ∧
    ∀ (f : ℚ → ℚ) (a b : ℚ),
      (PiecewiseIntegral.create close_enough ε integrator criticalPoints
        avoidCriticalPoints).integrate close_enough f a b =
      (PiecewiseIntegral.create close_enough ε integrator criticalPoints'
        avoidCriticalPoints).integrate close_enough f a b := by
  have hcps : unique close_enough (sort criticalPoints) =
      unique close_enough (sort criticalPoints') := by
    rw [← unique_unique_eq close_enough hrefl (sort criticalPoints),
      ← unique_unique_eq close_enough hrefl (sort criticalPoints'),
      unique_eq_sort_congr criticalPoints criticalPoints' hset]
  refine ⟨hcps, fun f a b => ?_⟩
  unfold PiecewiseIntegral.create
  rw [hcps]

/-- Instance of C19: the inputs `[5, 2, 2, 5]` and `[2, 5]`. -/
theorem create_depends_on_set_witness :
    (∀ x, closeEnough x x = true) ∧
    (∀ x, x ∈ [(5 : ℚ), 2, 2, 5] ↔ x ∈ [(2 : ℚ), 5]) ∧
    ((PiecewiseIntegral.create closeEnough QL_EPSILON widthIntegrator [5, 2, 2, 5]
      true).criticalPoints_ =
    (PiecewiseIntegral.create closeEnough QL_EPSILON widthIntegrator [2, 5]
      true).criticalPoints_ ∧
    ∀ (f : ℚ → ℚ) (a b : ℚ),
      (PiecewiseIntegral.create closeEnough QL_EPSILON widthIntegrator [5, 2, 2, 5]
        true).integrate closeEnough f a b =
      (PiecewiseIntegral.create closeEnough QL_EPSILON widthIntegrator [2, 5]
        true).integrate closeEnough f a b) :=
  ⟨closeEnough_refl, by intro x; simp; tauto,
    create_depends_on_set closeEnough closeEnough_refl QL_EPSILON widthIntegrator
      [5, 2, 2, 5] [2, 5] true (by intro x; simp; tauto)⟩

/-! ## Which elements the normalisation removes -/

/-- C16, the claim fails: in the ascending input `[1, 1 + 30*QL_EPSILON, 1 + 60*QL_EPSILON]`
each of the last two elements is tolerance-close to its immediate predecessor, so the
claim removes both; the constructor compares with the element kept last, 1, to which the
third element is not close, and stores `[1, 1 + 60*QL_EPSILON]`. -/
theorem create_keeps_point_close_to_removed_predecessor :
    sort [1, 1 + 30 * QL_EPSILON, 1 + 60 * QL_EPSILON] =
      [1, 1 + 30 * QL_EPSILON, 1 + 60 * QL_EPSILON] ∧
    closeEnough 1 (1 + 30 * QL_EPSILON) = true ∧
    closeEnough (1 + 30 * QL_EPSILON) (1 + 60 * QL_EPSILON) = true ∧
    closeEnough 1 (1 + 60 * QL_EPSILON) = false ∧
    dropCloseToPredecessor closeEnough
      (sort [1, 1 + 30 * QL_EPSILON, 1 + 60 * QL_EPSILON]) = [1] ∧
    (PiecewiseIntegral.create closeEnough QL_EPSILON widthIntegrator
      [1, 1 + 30 * QL_EPSILON, 1 + 60 * QL_EPSILON] true).criticalPoints_ = [1, 1 + 60 * QL_EPSILON] ∧
    (PiecewiseIntegral.create closeEnough QL_EPSILON widthIntegrator
      [1, 1 + 30 * QL_EPSILON, 1 + 60 * QL_EPSILON] true).criticalPoints_ ≠
      dropCloseToPredecessor closeEnough
        (sort [1, 1 + 30 * QL_EPSILON, 1 + 60 * QL_EPSILON]) := by
  decide!

/-- C16, amended: for every input list, the ascending-sorted input is a concatenation of
runs, each a kept element followed by removed elements that are all `close_enough` to
that kept element; the stored sequence is the kept elements in order, and no kept
element is `close_enough` to the kept element before it. So the normalisation removes
exactly the elements that are `close_enough` to the last element kept before them. -/
theorem create_criticalPoints_runs (close_enough : ℚ → ℚ → Bool) (ε : ℚ)
    (integrator : Integrator) (criticalPoints : List ℚ) (avoidCriticalPoints : Bool) :
    ∃ runs : List (ℚ × List ℚ),
      sort criticalPoints = runs.flatMap (fun r => r.1 :: r.2) ∧
      (PiecewiseIntegral.create close_enough ε integrator criticalPoints
        avoidCriticalPoints).criticalPoints_ = runs.map Prod.fst ∧
      (∀ r ∈ runs, ∀ y ∈ r.2, close_enough r.1 y = true) ∧
      List.Chain' (fun x y => close_enough x y = false) (runs.map Prod.fst) := by
  have hchain := unique_chain' close_enough (sort criticalPoints)
  show ∃ runs : List (ℚ × List ℚ),
      sort criticalPoints = runs.flatMap (fun r => r.1 :: r.2) ∧
      unique close_enough (sort criticalPoints) = runs.map Prod.fst ∧
      (∀ r ∈ runs, ∀ y ∈ r.2, close_enough r.1 y = true) ∧
      List.Chain' (fun x y => close_enough x y = false) (runs.map Prod.fst)
  cases hv : sort criticalPoints with
  | nil =>
    exact ⟨[], rfl, rfl, fun r hr => absurd hr (List.not_mem_nil r), List.chain'_nil⟩
  | cons x xs =>
    rw [hv] at hchain
    obtain ⟨d, runs, hxs, hd, hu, hr⟩ := uniqueFrom_runs close_enough xs x
    have hmap : unique close_enough (x :: xs) = ((x, d) :: runs).map Prod.fst := by
      show x :: uniqueFrom close_enough x xs = _
      rw [hu]
      rfl
    refine ⟨(x, d) :: runs, ?_, hmap, ?_, hmap ▸ hchain⟩
    · rw [List.flatMap_cons, List.cons_append, ← hxs]
    · intro r hrm
      rcases List.mem_cons.mp hrm with h | h
      · rw [h]; exact hd
      · exact hr r h

/-! ## Splitting loses and double-counts nothing -/

/-- C13, the code at a negative critical point: with the critical point `-1` and avoidance
enabled, `integrate` over `[-2, 0]` issues the calls over `[-2, -1/eps]` and
`[-1*eps, 0]`, which overlap in `[-1*eps, -1/eps]`; and over `[-1, 0]` it issues the call
over `[-1*eps, 0]`, whose lower bound is below `a = -1`. -/
theorem integrate_negative_point_overlapping_calls :
    ((PiecewiseIntegral.create closeEnough QL_EPSILON widthIntegrator [-1] true).integrate
      closeEnough id (-2) 0).2 = [(-2, -1 / (1 + QL_EPSILON)), (-1 * (1 + QL_EPSILON), 0)] ∧
    ((-1 : ℚ) * (1 + QL_EPSILON) < -1 / (1 + QL_EPSILON) ∧ (-2 : ℚ) < 0) ∧
    ¬ ((-1 : ℚ) / (1 + QL_EPSILON) ≤ -1 * (1 + QL_EPSILON) ∨ (0 : ℚ) ≤ -2) ∧
    ((PiecewiseIntegral.create closeEnough QL_EPSILON widthIntegrator [-1] true).integrate
      closeEnough id (-1) 0).2 = [(-1 * (1 + QL_EPSILON), 0)] ∧
    ¬ ((-1 : ℚ) ≤ -1 * (1 + QL_EPSILON)) := by
  decide!

/-- In exact arithmetic, where the critical points are strictly positive the
sub-intervals do form a partition: for either avoidance setting (`ε >= 0`), a reflexive
symmetric `close_enough` that holds from every positive value up to that value nudged
twice, and `a <= b`, every delegate call satisfies `a <= lower < upper <= b`, and the
calls, in the order issued, are pairwise non-overlapping. -/
theorem integrate_positive_points_partition (close_enough : ℚ → ℚ → Bool)
    (hrefl : ∀ x, close_enough x x = true)
    (hsymm : ∀ x y, close_enough x y = close_enough y x) (ε : ℚ) (hε : 0 ≤ ε)
    (hnear : ∀ u v, 0 < u → u ≤ v → v ≤ u * (1 + ε) * (1 + ε) → close_enough u v = true)
    (integrator : Integrator) (criticalPoints : List ℚ) (avoidCriticalPoints : Bool)
    (hpos : ∀ c ∈ criticalPoints, 0 < c) (f : ℚ → ℚ) (a b : ℚ) (hab : a ≤ b) :
    (∀ call ∈ ((PiecewiseIntegral.create close_enough ε integrator criticalPoints
        avoidCriticalPoints).integrate close_enough f a b).2,
      a ≤ call.1 ∧ call.1 < call.2 ∧ call.2 ≤ b) ∧
    ((PiecewiseIntegral.create close_enough ε integrator criticalPoints
        avoidCriticalPoints).integrate close_enough f a b).2.Pairwise
      (fun c c' => c.2 ≤ c'.1 ∨ c'.2 ≤ c.1) := by
  have heps : 1 ≤ (PiecewiseIntegral.create close_enough ε integrator criticalPoints
        avoidCriticalPoints).eps_ ∧
      (PiecewiseIntegral.create close_enough ε integrator criticalPoints
        avoidCriticalPoints).eps_ ≤ 1 + ε := by
    show 1 ≤ (if avoidCriticalPoints = true then 1 + ε else 1) ∧
      (if avoidCriticalPoints = true then 1 + ε else 1) ≤ 1 + ε
    split <;> constructor <;> linarith
  have hs : (PiecewiseIntegral.create close_enough ε integrator criticalPoints
        avoidCriticalPoints).criticalPoints_.Sorted (fun x y => x ≤ y) :=
    unique_sort_sorted close_enough criticalPoints
  have hp : ∀ c ∈ (PiecewiseIntegral.create close_enough ε integrator criticalPoints
        avoidCriticalPoints).criticalPoints_, 0 < c :=
    fun c hc => hpos c (mem_unique_sort close_enough criticalPoints c hc)
  have hch : List.Chain' (fun x y => close_enough x y = false)
      (PiecewiseIntegral.create close_enough ε integrator criticalPoints
        avoidCriticalPoints).criticalPoints_ :=
    unique_chain' close_enough (sort criticalPoints)
  generalize PiecewiseIntegral.create close_enough ε integrator criticalPoints
    avoidCriticalPoints = P at heps hs hp hch ⊢
  have hnear' : ∀ u v, 0 < u → u ≤ v → v ≤ u * P.eps_ * P.eps_ →
      close_enough u v = true := by
    intro u v hu huv hv
    apply hnear u v hu huv
    have h1 : u * P.eps_ ≤ u * (1 + ε) := mul_le_mul_of_nonneg_left heps.2 hu.le
    have h2 : u * P.eps_ * P.eps_ ≤ u * (1 + ε) * (1 + ε) :=
      mul_le_mul h1 heps.2 (by linarith) (by nlinarith)
    linarith
  exact ⟨fun call hcall => calls_within_bounds close_enough P f a b heps.1 hs hp hch hrefl
      hsymm hnear' hab call hcall,
    calls_pairwise_disjoint close_enough P f a b heps.1 hs hp⟩

/-- The partition theorem applies to the model of `close_enough`: an instance with the
input `[5, 2]` and `[a, b] = [0, 10]`. -/
theorem integrate_positive_points_partition_model :
    (∀ call ∈ ((PiecewiseIntegral.create closeEnough QL_EPSILON widthIntegrator [5, 2]
        true).integrate closeEnough id 0 10).2,
      (0 : ℚ) ≤ call.1 ∧ call.1 < call.2 ∧ call.2 ≤ 10) ∧
    ((PiecewiseIntegral.create closeEnough QL_EPSILON widthIntegrator [5, 2]
        true).integrate closeEnough id 0 10).2.Pairwise
      (fun c c' => c.2 ≤ c'.1 ∨ c'.2 ≤ c.1) :=
  integrate_positive_points_partition closeEnough closeEnough_refl closeEnough_symm
    QL_EPSILON QL_EPSILON_pos.le closeEnough_nudge_twice widthIntegrator [5, 2] true
    (by decide!) id 0 10 (by norm_num)

end QuantLib
